import Mathlib

/-!
Verification of the hierarchical configuration store of the isc-transcription
repository (`src/utils/TranscriptionConfig.py`, `main.py`).

The store keeps an XML element tree (`xml.etree.ElementTree`), addressed by
slash-delimited paths.  We embed the element tree as `Node` (tag, optional
text, ordered children) and translate each method of `TranscriptionConfig`
into a pure function on `Node`.  Python's in-place mutation through aliased
element references becomes functional rebuilding along the traversed path;
a method that returns `False` (its `except` branch, or an explicit
`return False`) leaving the tree unmodified becomes `Option.none`.

ElementTree's `find` accepts a small XPath subset.  The repository only ever
uses plain slash-separated tag paths, so the embedding models `find` on that
plain subset exactly and maps any other path syntax to an error: for such
paths the real `find` either raises `SyntaxError` (e.g. an unterminated
predicate such as the path `a[`) or engages XPath features the repository
never exercises.  Every theorem about non-plain paths below uses only inputs
on which the real library demonstrably raises.

On plain multi-segment paths, `ElementPath` evaluates a pipeline of
child-selection stages over node LISTS, which amounts to a document-order
search that backtracks across duplicate siblings: `find("a/b")` on a tree
with an empty first `a` and a second `a` holding a `b` returns that `b`.
This pipeline is embedded as `etSelect`/`etFindPath` and is the model of
every multi-segment `find` call (`get`, and `delete_key`'s parent lookup).
The per-segment loops inside `set` and `create_key` are different: they call
`parent.find(part)` one single tag at a time and COMMIT to the first match
at each level; that committed descent is embedded separately as
`findChild`/`findPath`.  When committed descent succeeds it returns the
document-order-first full match, so the two agree there (proved below as
`findPath_imp_etFindPath`).

The write/parse round trip is fallible: the writer emits tags verbatim and
text escaped only for `&`, `<`, `>`, and `tree.write(path)` defaults to
us-ascii encoding, which renders any non-ASCII character as a character
reference — harmless in text, fatal inside a tag.  So a tree survives the
round trip only when every tag is an ASCII XML Name and every text
character lies in the XML `Char` production; anything else (a tag with a
space or a non-ASCII letter, text with a control character) serializes to
output the parser rejects.  `etWriteRead` therefore returns an `Option`,
failing outside that domain.  `:` is excluded from the modelled tag
alphabet: a colon engages namespace handling and an unbound prefix fails
the re-parse (only the predefined `xml` prefix would be accepted — an edge
no theorem below touches; the repository's own keys are plain ASCII
names).
-/

namespace ISC

/-- An XML element as built by `xml.etree.ElementTree`: a tag, optional text
content, and an ordered list of child elements.  Tail text is omitted: the
configuration code never creates or reads tails. -/
inductive Node where
  | mk (tag : String) (text : Option String) (children : List Node)

def Node.tag : Node → String
  | .mk t _ _ => t

def Node.text : Node → Option String
  | .mk _ x _ => x

def Node.children : Node → List Node
  | .mk _ _ c => c

@[simp] theorem Node.tag_mk (t : String) (x : Option String) (c : List Node) :
    (Node.mk t x c).tag = t := rfl

@[simp] theorem Node.text_mk (t : String) (x : Option String) (c : List Node) :
    (Node.mk t x c).text = x := rfl

@[simp] theorem Node.children_mk (t : String) (x : Option String) (c : List Node) :
    (Node.mk t x c).children = c := rfl

/-- Character-level worker for `pySplit`. -/
def pySplitChars (sep : Char) : List Char → List (List Char)
  | [] => [[]]
  | c :: cs =>
    if c = sep then [] :: pySplitChars sep cs
    else
      match pySplitChars sep cs with
      | [] => [[c]]
      | s :: ss => (c :: s) :: ss

/-- Python's `str.split(sep)` for a one-character separator, as used by
`key.split("/")`: splitting the empty string gives `[""]`, and leading,
trailing, or doubled separators produce empty segments. -/
def pySplit (sep : Char) (s : String) : List String :=
  (pySplitChars sep s.toList).map List.asString

/-- A path segment is plain when it is a bare tag name: nonempty and free of
the XPath operator characters interpreted by `ElementPath`.  The repository
only passes plain segments. -/
def segmentPlain (s : String) : Bool :=
  s ≠ "" && s.toList.all fun c =>
    c ≠ '[' && c ≠ ']' && c ≠ '*' && c ≠ '@' && c ≠ '.'

/-- A key is plain when each slash-separated segment is plain. -/
def pathPlain (key : String) : Bool :=
  (pySplit '/' key).all segmentPlain

/-- `Element.find(tag)` for a single plain tag: the first child whose tag
matches. -/
def findChild (n : Node) (t : String) : Option Node :=
  n.children.find? fun c => c.tag == t

/-- COMMITTED per-segment descent: at each level take the first child whose
tag equals the segment and fail if the recursion below it fails.  This is
NOT ElementTree's multi-segment `find` (which backtracks, see `etFindPath`);
it is the loop `set`/`create_key` run themselves, one `parent.find(part)`
single-tag call per level, committing to each first match. -/
def findPath : Node → List String → Option Node
  | n, [] => some n
  | n, s :: rest =>
    match findChild n s with
    | none => none
    | some c => findPath c rest

/-- One `ElementPath` pipeline stage for a plain tag token: every child
tagged `t` of every node of the incoming list, in document order. -/
def selectTag (t : String) (ns : List Node) : List Node :=
  ns.flatMap fun n => n.children.filter fun c => c.tag == t

/-- `ElementPath` evaluation of an already-split plain path over a node
list: one `selectTag` stage per segment. -/
def etSelect (ns : List Node) (segs : List String) : List Node :=
  segs.foldl (fun acc s => selectTag s acc) ns

/-- `root.find(path)` for a plain multi-segment path: the first node, in
document order, reached by matching every segment — ElementTree backtracks
across duplicate siblings rather than committing to the first match of a
prefix. -/
def etFindPath (root : Node) (segs : List String) : Option Node :=
  (etSelect [root] segs).head?

/-- Whether some node in `n`'s subtree matches the whole segment list
(starting at `n`'s children): the guard deciding which sibling the
backtracking search descends into. -/
def hasMatch (n : Node) (segs : List String) : Bool :=
  !(etSelect [n] segs).isEmpty

/-- `root.find(key)` as called with an arbitrary key string: splits on `/`
and runs the backtracking pipeline on plain paths; any non-plain path is
modelled as a raised exception (`Except.error`), which is what ElementTree
does on the malformed path syntax exercised below. -/
def etFind (root : Node) (key : String) : Except Unit (Option Node) :=
  if pathPlain key then .ok (etFindPath root (pySplit '/' key)) else .error ()

/-- `TranscriptionConfig.get`: `element = self.root.find(key)` runs BEFORE
the `try` block, so an exception from `find` propagates to the caller.
Inside the `try`, a found element yields `element.text`; a `None` element
makes `element.text` raise `AttributeError`, which the `except` branch turns
into `None`. -/
def TranscriptionConfig.get (root : Node) (key : String) :
    Except Unit (Option String) :=
  match etFind root key with
  | .error e => .error e
  | .ok none => .ok none
  | .ok (some el) => .ok el.text

/-- Replace the text of the first child whose tag is `t` (the element
`parent.find(parts[-1])` aliases) with `v`, leaving siblings untouched. -/
def replaceFirstText (t v : String) : List Node → List Node
  | [] => []
  | c :: cs =>
    if c.tag == t then .mk c.tag (some v) c.children :: cs
    else c :: replaceFirstText t v cs

/-- Rebuild a child list by applying `f` to the first child whose tag is `t`;
`none` when no child matches or when `f` fails on the match.  This is the
functional image of mutating through the aliased result of
`parent.find(part)`. -/
def intoFirst (t : String) (f : Node → Option Node) : List Node → Option (List Node)
  | [] => none
  | c :: cs =>
    if c.tag == t then (f c).map (· :: cs)
    else (intoFirst t f cs).map (c :: ·)

/-- The terminal step of `TranscriptionConfig.set` on a multi-segment key:
`element = parent.find(parts[-1])`; if present its text is overwritten, if
absent a fresh element is created and appended, then given text `value`. -/
def setTerminal (n : Node) (last value : String) : Node :=
  if (findChild n last).isSome then
    .mk n.tag n.text (replaceFirstText last value n.children)
  else
    .mk n.tag n.text (n.children ++ [.mk last (some value) []])

/-- The descent loop of `TranscriptionConfig.set` over the split key: each
intermediate segment must already resolve (`if child is None: return False`);
only the terminal segment is created on demand. -/
def setDescend (value : String) : List String → Node → Option Node
  | [], _ => none
  | [last], n => some (setTerminal n last value)
  | s :: rest, n =>
    (intoFirst s (setDescend value rest) n.children).map fun cs =>
      .mk n.tag n.text cs

/-- `TranscriptionConfig.set`.  A single-segment key writes the text of the
ROOT element itself (`self.root.text = value`), not of any child.  A
multi-segment key walks the intermediate segments, failing (returns `False`,
modelled `none`) when one is missing, and writes or creates the terminal.
Multi-segment keys are modelled on the plain subset; a non-plain segment
makes the real `parent.find` raise inside the `try`, which the handler turns
into `False`. -/
def TranscriptionConfig.set (root : Node) (key value : String) : Option Node :=
  match pySplit '/' key with
  | [] => none
  | [_] => some (.mk root.tag (some value) root.children)
  | parts =>
    if parts.all segmentPlain then setDescend value parts root else none

/-- Rebuild a child list by applying the total function `f` to the first
child whose tag is `t`, leaving the list unchanged when no child matches. -/
def replaceFirstWith (t : String) (f : Node → Node) : List Node → List Node
  | [] => []
  | c :: cs => if c.tag == t then f c :: cs else c :: replaceFirstWith t f cs

/-- The descent loop of `TranscriptionConfig.create_key`: each intermediate
segment is looked up with `parent.find(part)` and, when missing, a fresh
empty element is created and appended before descending into it; the
terminal element is ALWAYS created anew and appended, with no check for an
existing sibling of the same tag. -/
def createDescend (value : String) : List String → Node → Node
  | [], n => n
  | [last], n => .mk n.tag n.text (n.children ++ [.mk last (some value) []])
  | s :: rest, n =>
    if (findChild n s).isSome then
      .mk n.tag n.text (replaceFirstWith s (createDescend value rest) n.children)
    else
      .mk n.tag n.text (n.children ++ [createDescend value rest (.mk s none [])])

/-- `TranscriptionConfig.create_key`.  A single-segment key appends a fresh
element directly under root (no `find` is involved, so even exotic tags
succeed); a multi-segment key runs the create-on-demand descent.
Multi-segment keys are modelled on the plain subset, on which every
`parent.find(part)` of the source is exactly first-tag-match. -/
def TranscriptionConfig.create_key (root : Node) (key value : String) :
    Option Node :=
  match pySplit '/' key with
  | [] => none
  | [k] => some (.mk root.tag root.text (root.children ++ [.mk k (some value) []]))
  | parts =>
    if parts.all segmentPlain then some (createDescend value parts root) else none

/-- Remove the first child whose tag is `t` (the element
`parent.find(nested_tags[-1])` aliases, which `parent.remove` then detaches);
`none` when no child matches, in which case `remove(None)` raises and the
handler returns `False`. -/
def removeFirstChild (t : String) : List Node → Option (List Node)
  | [] => none
  | c :: cs =>
    if c.tag == t then some cs else (removeFirstChild t cs).map (c :: ·)

/-- Rebuild a child list by applying `f` to the first child satisfying `p`;
`none` when no child satisfies `p` or when `f` fails on that child. -/
def intoFirstWith (p : Node → Bool) (f : Node → Option Node) :
    List Node → Option (List Node)
  | [] => none
  | c :: cs =>
    if p c then (f c).map (· :: cs)
    else (intoFirstWith p f cs).map (c :: ·)

/-- The body of `TranscriptionConfig.delete_key` over the split key with the
terminal segment `last` peeled off: `parent = root.find(prefix)` resolves
the leading segments by the BACKTRACKING pipeline, i.e. to the
document-order-first node matching all of them — functionally, descend at
each level into the first child with the segment's tag whose subtree matches
the remaining prefix (`hasMatch`).  At the located parent,
`element = parent.find(last)` takes the first child tagged `last` and
`parent.remove(element)` detaches it.  A missing parent (`AttributeError` on
`None.find`) or missing element (`ValueError` on `remove(None)`) raises, and
the handler returns `False`, modelled `none`; no other parent is tried. -/
def delDescend (last : String) : Node → List String → Option Node
  | n, [] => (removeFirstChild last n.children).map fun cs => .mk n.tag n.text cs
  | n, s :: rest =>
    (intoFirstWith (fun c => c.tag == s && hasMatch c rest)
        (fun c => delDescend last c rest) n.children).map fun cs =>
      .mk n.tag n.text cs

/-- The element `delete_key` aims at: the first child carrying the terminal
tag under the document-order-first match of the leading segments. -/
def deleteTarget (root : Node) (init : List String) (last : String) :
    Option Node :=
  (etFindPath root init).bind fun p => findChild p last

/-- `TranscriptionConfig.delete_key` on a key string, modelled on the plain
subset (a non-plain segment makes the source's `find` raise inside the
`try`, so the handler returns `False` with the tree unchanged).  The
`'/' in key` branch split of the source collapses into one case: for a
single-segment key the leading-segment list is empty and the parent is root
itself. -/
def TranscriptionConfig.delete_key (root : Node) (key : String) : Option Node :=
  if pathPlain key then
    match (pySplit '/' key).getLast? with
    | none => none
    | some last => delDescend last root (pySplit '/' key).dropLast
  else none

/-- Insertion into the association-list image of a Python `dict`: assigning
`result[k] = v` overwrites the value of an existing key in place and appends
a fresh key at the end. -/
def dinsert {β : Type} (k : String) (v : β) :
    List (String × β) → List (String × β)
  | [] => [(k, v)]
  | p :: rest => if p.1 == k then (k, v) :: rest else p :: dinsert k v rest

/-- Lookup in the association-list image of a Python `dict`.  On lists built
with `dinsert` keys are unique, so first-match lookup is the dict lookup. -/
def alookup {β : Type} (k : String) : List (String × β) → Option β
  | [] => none
  | p :: rest => if p.1 == k then some p.2 else alookup k rest

/-- `TranscriptionConfig.get_all`: one `result[child.tag] = child.text` entry
per direct child of root, except that a child whose tag is literally
`settings` instead contributes one `result["settings/" + sub.tag]` entry per
grandchild. -/
def TranscriptionConfig.get_all (root : Node) : List (String × Option String) :=
  root.children.foldl
    (fun acc c =>
      if c.tag == "settings" then
        c.children.foldl (fun a sub => dinsert (c.tag ++ "/" ++ sub.tag) sub.text a) acc
      else dinsert c.tag c.text acc)
    []

/-- The XML 1.0 `Char` production: characters that may appear in document
text.  ElementTree's writer escapes only `&`, `<`, `>` and emits everything
else (as-is or as a character reference), so text holding a character
outside this set serializes to a document the parser rejects. -/
def xmlCharOk (c : Char) : Bool :=
  c.val == 0x9 || c.val == 0xA || c.val == 0xD ||
  (0x20 ≤ c.val && c.val ≤ 0xD7FF) ||
  (0xE000 ≤ c.val && c.val ≤ 0xFFFD) ||
  (0x10000 ≤ c.val && c.val ≤ 0x10FFFF)

/-- A character that may START an element tag in output that re-parses:
the ASCII part of the XML `NameStartChar` production, minus `:` (a colon
engages namespace handling, outside the modelled domain).  Non-ASCII name
characters are excluded because `tree.write(path)` defaults to us-ascii
encoding and renders them as character references INSIDE the tag, which the
parser then rejects — so only ASCII names actually survive the round
trip. -/
def xmlNameStartOk (c : Char) : Bool :=
  (0x41 ≤ c.val && c.val ≤ 0x5A) || c.val == 0x5F ||
  (0x61 ≤ c.val && c.val ≤ 0x7A)

/-- A character that may CONTINUE an element tag in output that re-parses:
the ASCII part of the XML `NameChar` production, minus `:`. -/
def xmlNameCharOk (c : Char) : Bool :=
  xmlNameStartOk c || c.val == 0x2D || c.val == 0x2E ||
  (0x30 ≤ c.val && c.val ≤ 0x39)

/-- Whether a string is usable as an element tag in a round-trippable
document: an ASCII XML `Name`.  `ET.Element` and the writer accept ANY
string as a tag, so a tag outside this set (one with a space, or a
non-ASCII letter mangled by the us-ascii encoder) produces output the
parser rejects. -/
def xmlNameOk (s : String) : Bool :=
  match s.toList with
  | [] => false
  | c :: cs => xmlNameStartOk c && cs.all xmlNameCharOk

/-- Whether an element's optional text survives serialization: all
characters within the XML `Char` production. -/
def xmlTextOk : Option String → Bool
  | none => true
  | some s => s.toList.all xmlCharOk

mutual

/-- The effect of `self.tree.write(path)` followed by `ET.parse(path)` on
one element (the serialize/parse pair used by `save_changes` and
`__init__`).  The re-parse FAILS (`none`) when the element's tag is not an
XML Name or its text holds a character outside the XML `Char` production —
the writer emits both verbatim (text escaped only for `&`, `<`, `>`), so
the output is not well-formed XML.  Otherwise: the writer emits an
element's text only when it is truthy, so a text of `""` is not written and
parses back as `None`; every other text is escaped on write and unescaped
on parse, returning identical; tags and child order pass through unchanged.
Tail text, absent from the trees this code builds, is not modelled. -/
def etWriteRead : Node → Option Node
  | .mk t txt cs =>
    if xmlNameOk t && xmlTextOk txt then
      (etWriteReadList cs).map fun cs' =>
        .mk t (if txt == some "" then none else txt) cs'
    else none

/-- `etWriteRead` across a child list, failing if any child fails. -/
def etWriteReadList : List Node → Option (List Node)
  | [] => some []
  | c :: cs =>
    match etWriteRead c, etWriteReadList cs with
    | some c', some cs' => some (c' :: cs')
    | _, _ => none

end

mutual

/-- No element anywhere in the tree has text `some ""` (the one text value
that does not survive a write/parse round trip). -/
def textsNonempty : Node → Bool
  | .mk _ txt cs => !(txt == some "") && textsNonemptyList cs

/-- `textsNonempty` across a child list. -/
def textsNonemptyList : List Node → Bool
  | [] => true
  | c :: cs => textsNonempty c && textsNonemptyList cs

end

mutual

/-- Every element in the tree has an XML-Name tag and XML-valid text — the
domain on which the write/parse round trip succeeds. -/
def xmlOk : Node → Bool
  | .mk t txt cs => xmlNameOk t && xmlTextOk txt && xmlOkList cs

/-- `xmlOk` across a child list. -/
def xmlOkList : List Node → Bool
  | [] => true
  | c :: cs => xmlOk c && xmlOkList cs

end

/-- A mutating operation of the store: `set(key, value)` or
`create_key(key, value)`. -/
inductive Op where
  | setv (key value : String)
  | createv (key value : String)
deriving DecidableEq

/-- The key an operation addresses. -/
def Op.key : Op → String
  | .setv k _ => k
  | .createv k _ => k

/-- The value an operation writes. -/
def Op.value : Op → String
  | .setv _ v => v
  | .createv _ v => v

/-- Run one operation; a call that returns `False` leaves the tree
unchanged. -/
def applyOp (n : Node) : Op → Node
  | .setv k v => (TranscriptionConfig.set n k v).getD n
  | .createv k v => (TranscriptionConfig.create_key n k v).getD n

/-- Run a sequence of store operations against a document. -/
def applyOps (n : Node) (ops : List Op) : Node :=
  ops.foldl applyOp n

/-- Modelled from the spec: the `resolved` computation of
`ConfigStore.construct` (spec 4.3).  The repository variant implementing
the three-layer merge is not among the files under src/ (only the full-CRUD
variant is; spec 9 records the two divergent variants), so the algorithm is
taken from the spec's words: start from a copy of `defaults`; for every key
the document exposes via `flatten()`, overwrite; for every key present in
`overrides` with a non-null value, overwrite again.  Mappings are embedded
as unique-key association lists, written with the dict-assignment
`dinsert`; a `none` override value is the parser's unset sentinel. -/
def computeResolved (defaults docFlat : List (String × String))
    (overrides : List (String × Option String)) : List (String × String) :=
  let withDoc := docFlat.foldl (fun acc p => dinsert p.1 p.2 acc) defaults
  overrides.foldl
    (fun acc p =>
      match p.2 with
      | none => acc
      | some v => dinsert p.1 v acc)
    withDoc

/-- The observable facts about one run's configuration file: whether
`etree.parse`/`ET.parse` succeeds (and with which tree), whether the schema
file itself loads as a valid XMLSchema, and whether the document satisfies
it. -/
structure XmlEnv where
  parses : Option Node
  schemaOk : Bool
  valid : Bool

/-- The log notice `validate_configxml` emits. -/
inductive LogMsg where
  | infoValid
  | errorSchemaParse
  | errorDocumentInvalid
  | errorOther

/-- `main.validate_configxml`: parses the document, loads the schema, and
asserts validity; every failure is caught by one of the three `except`
branches and merely logged.  The function always returns (never raises,
never aborts). -/
def validate_configxml (env : XmlEnv) : LogMsg :=
  match env.parses with
  | none => .errorOther
  | some _ =>
    if env.schemaOk then
      if env.valid then .infoValid else .errorDocumentInvalid
    else .errorSchemaParse

/-- The configuration-construction portion of `main`: it calls
`validate_configxml` (whose outcome is only logged) and then unconditionally
constructs `TranscriptionConfig(args.configxml)`, whose `__init__` runs
`ET.parse` with no handler — an unparseable file raises out of `main`
(modelled `.error`), anything parseable yields a live store. -/
def mainBuildConfig (env : XmlEnv) : Except Unit (LogMsg × Node) :=
  let lg := validate_configxml env
  match env.parses with
  | none => .error ()
  | some r => .ok (lg, r)

/-! ### Association-list (dict) lemmas -/

theorem alookup_dinsert {β : Type} (k k' : String) (v : β) :
    ∀ l : List (String × β),
      alookup k (dinsert k' v l) = if k' = k then some v else alookup k l
  | [] => by
    by_cases h : k' = k <;> simp [dinsert, alookup, h]
  | (pk, pv) :: rest => by
    by_cases h1 : pk = k'
    · subst h1
      by_cases h2 : pk = k <;> simp [dinsert, alookup, h2]
    · by_cases h2 : pk = k
      · subst h2
        have hne : k' ≠ pk := fun hk => h1 hk.symm
        simp [dinsert, alookup, h1, hne]
      · simp [dinsert, alookup, h1, h2, alookup_dinsert k k' v rest]

/-- The document-layer fold of `computeResolved` leaves alone every key the
document does not expose. -/
theorem alookup_docFold_not_mem (k : String) :
    ∀ (l : List (String × String)) (init : List (String × String)),
      k ∉ l.map Prod.fst →
      alookup k (l.foldl (fun acc p => dinsert p.1 p.2 acc) init) = alookup k init
  | [], _, _ => rfl
  | p :: rest, init, h => by
    simp only [List.map_cons, List.mem_cons] at h
    push_neg at h
    simp only [List.foldl_cons]
    rw [alookup_docFold_not_mem k rest _ h.2, alookup_dinsert]
    exact if_neg fun hk => h.1 hk.symm

/-- The document-layer fold of `computeResolved` gives every document key its
document value (keys are unique: they come from a dict). -/
theorem alookup_docFold_mem (k v : String) :
    ∀ (l : List (String × String)) (init : List (String × String)),
      (k, v) ∈ l → (l.map Prod.fst).Nodup →
      alookup k (l.foldl (fun acc p => dinsert p.1 p.2 acc) init) = some v
  | [], _, h, _ => absurd h (List.not_mem_nil _)
  | p :: rest, init, h, hnd => by
    simp only [List.map_cons, List.nodup_cons] at hnd
    rcases List.mem_cons.mp h with heq | hmem
    · subst heq
      simp only [List.foldl_cons]
      rw [alookup_docFold_not_mem k rest _ (by simpa using hnd.1),
        alookup_dinsert, if_pos rfl]
    · simp only [List.foldl_cons]
      exact alookup_docFold_mem k v rest _ hmem hnd.2

/-- The override-layer fold of `computeResolved` leaves alone every key with
no non-null override. -/
theorem alookup_ovrFold_not_mem (k : String) :
    ∀ (l : List (String × Option String)) (init : List (String × String)),
      (∀ v, (k, some v) ∉ l) →
      alookup k (l.foldl
        (fun acc p => match p.2 with | none => acc | some v => dinsert p.1 v acc)
        init) = alookup k init
  | [], _, _ => rfl
  | (pk, pv) :: rest, init, h => by
    have hrest : ∀ v, (k, some v) ∉ rest := fun v hv =>
      h v (List.mem_cons_of_mem _ hv)
    match pv with
    | none =>
      simp only [List.foldl_cons]
      exact alookup_ovrFold_not_mem k rest init hrest
    | some w =>
      simp only [List.foldl_cons]
      rw [alookup_ovrFold_not_mem k rest _ hrest, alookup_dinsert]
      refine if_neg fun hk => ?_
      exact h w (by simp [hk.symm])

/-- The override-layer fold of `computeResolved` gives every key with a
non-null override that override's value (keys are unique: they come from a
dict). -/
theorem alookup_ovrFold_mem (k v : String) :
    ∀ (l : List (String × Option String)) (init : List (String × String)),
      (k, some v) ∈ l → (l.map Prod.fst).Nodup →
      alookup k (l.foldl
        (fun acc p => match p.2 with | none => acc | some v => dinsert p.1 v acc)
        init) = some v
  | [], _, h, _ => absurd h (List.not_mem_nil _)
  | (pk, pv) :: rest, init, h, hnd => by
    simp only [List.map_cons, List.nodup_cons] at hnd
    rcases List.mem_cons.mp h with heq | hmem
    · have hpk : pk = k := by cases heq; rfl
      have hpv : pv = some v := by cases heq; rfl
      subst hpk; subst hpv
      simp only [List.foldl_cons]
      have : ∀ w, (pk, some w) ∉ rest := by
        intro w hw
        exact hnd.1 (by simpa using List.mem_map_of_mem Prod.fst hw)
      rw [alookup_ovrFold_not_mem pk rest _ this, alookup_dinsert, if_pos rfl]
    · simp only [List.foldl_cons]
      exact alookup_ovrFold_mem k v rest _ hmem hnd.2

/-! ### Child-list lemmas -/

theorem isSome_omap {α β : Type} (f : α → β) (o : Option α) :
    (o.map f).isSome = o.isSome := by
  cases o <;> rfl

theorem find?_replaceFirstText (t v : String) :
    ∀ cs c, cs.find? (fun x => x.tag == t) = some c →
      (replaceFirstText t v cs).find? (fun x => x.tag == t) =
        some (.mk c.tag (some v) c.children)
  | [], _, h => by simp at h
  | x :: cs, c, h => by
    by_cases hx : x.tag = t
    · have hfind : (x :: cs).find? (fun y => y.tag == t) = some x := by
        simp [List.find?_cons, hx]
      rw [h] at hfind
      cases hfind
      simp [replaceFirstText, hx, List.find?_cons]
    · have h' : cs.find? (fun y => y.tag == t) = some c := by
        simpa [List.find?_cons, hx] using h
      simp only [replaceFirstText, beq_iff_eq, if_neg hx]
      simpa [List.find?_cons, hx] using find?_replaceFirstText t v cs c h'

theorem find?_replaceFirstWith (t : String) (f : Node → Node) :
    ∀ cs c, cs.find? (fun x => x.tag == t) = some c → (f c).tag = c.tag →
      (replaceFirstWith t f cs).find? (fun x => x.tag == t) = some (f c)
  | [], _, h, _ => by simp at h
  | x :: cs, c, h, htag => by
    by_cases hx : x.tag = t
    · have hfind : (x :: cs).find? (fun y => y.tag == t) = some x := by
        simp [List.find?_cons, hx]
      rw [h] at hfind
      cases hfind
      simp [replaceFirstWith, hx, List.find?_cons, htag]
    · have h' : cs.find? (fun y => y.tag == t) = some c := by
        simpa [List.find?_cons, hx] using h
      simp only [replaceFirstWith, beq_iff_eq, if_neg hx]
      simpa [List.find?_cons, hx] using find?_replaceFirstWith t f cs c h' htag

theorem intoFirst_isSome (t : String) (f : Node → Option Node) :
    ∀ cs, (intoFirst t f cs).isSome ↔
      ∃ c, cs.find? (fun x => x.tag == t) = some c ∧ (f c).isSome
  | [] => by simp [intoFirst]
  | x :: cs => by
    by_cases hx : x.tag = t
    · simp [intoFirst, hx, List.find?_cons, Option.isSome_map]
    · simp only [intoFirst, beq_iff_eq, if_neg hx, isSome_omap]
      rw [intoFirst_isSome t f cs]
      simp [List.find?_cons, hx]

theorem intoFirst_spec (t : String) (f : Node → Option Node) :
    ∀ cs cs', intoFirst t f cs = some cs' →
      ∃ c c', cs.find? (fun x => x.tag == t) = some c ∧ f c = some c' ∧
        (c'.tag = c.tag → cs'.find? (fun x => x.tag == t) = some c')
  | [], _, h => by simp [intoFirst] at h
  | x :: cs, cs', h => by
    by_cases hx : x.tag = t
    · simp only [intoFirst, beq_iff_eq, if_pos hx] at h
      rcases Option.map_eq_some'.mp h with ⟨x', hx', rfl⟩
      refine ⟨x, x', by simp [List.find?_cons, hx], hx', fun htag => ?_⟩
      simp [List.find?_cons, htag, hx]
    · simp only [intoFirst, beq_iff_eq, if_neg hx] at h
      rcases Option.map_eq_some'.mp h with ⟨cs₀, hcs₀, rfl⟩
      rcases intoFirst_spec t f cs cs₀ hcs₀ with ⟨c, c', hfind, hf, hafter⟩
      exact ⟨c, c', by simp [List.find?_cons, hx, hfind], hf, fun htag => by
        simp [List.find?_cons, hx, hafter htag]⟩

theorem removeFirstChild_isSome (t : String) :
    ∀ cs, (removeFirstChild t cs).isSome ↔
      (cs.find? (fun x => x.tag == t)).isSome
  | [] => by simp [removeFirstChild]
  | x :: cs => by
    by_cases hx : x.tag = t
    · simp [removeFirstChild, hx, List.find?_cons]
    · simp only [removeFirstChild, beq_iff_eq, if_neg hx, isSome_omap]
      rw [removeFirstChild_isSome t cs]
      simp [List.find?_cons, hx]

theorem removeFirstChild_unique_find (t : String) :
    ∀ cs cs', removeFirstChild t cs = some cs' →
      (cs.filter (fun x => x.tag == t)).length ≤ 1 →
      cs'.find? (fun x => x.tag == t) = none
  | [], _, h, _ => by simp [removeFirstChild] at h
  | x :: cs, cs', h, hlen => by
    by_cases hx : x.tag = t
    · simp only [removeFirstChild, beq_iff_eq, if_pos hx, Option.some.injEq] at h
      subst h
      have hfil : (x :: cs).filter (fun y => y.tag == t) =
          x :: cs.filter (fun y => y.tag == t) := by
        simp [List.filter_cons, hx]
      rw [hfil, List.length_cons] at hlen
      have : (cs.filter (fun y => y.tag == t)).length = 0 := by omega
      have hnil : cs.filter (fun y => y.tag == t) = [] :=
        List.length_eq_zero.mp this
      rw [List.find?_eq_none]
      intro y hy
      have := List.filter_eq_nil_iff.mp hnil y hy
      simpa using this
    · simp only [removeFirstChild, beq_iff_eq, if_neg hx] at h
      rcases Option.map_eq_some'.mp h with ⟨cs₀, hcs₀, rfl⟩
      have hlen' : (cs.filter (fun y => y.tag == t)).length ≤ 1 := by
        simpa [List.filter_cons, hx] using hlen
      simp [List.find?_cons, hx,
        removeFirstChild_unique_find t cs cs₀ hcs₀ hlen']

/-! ### Descent lemmas for set, create_key, delete_key -/

theorem setDescend_cons (v s : String) (rest : List String) (n : Node)
    (h : rest ≠ []) :
    setDescend v (s :: rest) n =
      (intoFirst s (setDescend v rest) n.children).map fun cs =>
        .mk n.tag n.text cs := by
  cases rest with
  | nil => exact absurd rfl h
  | cons b t => rfl

theorem createDescend_cons (v s : String) (rest : List String) (n : Node)
    (h : rest ≠ []) :
    createDescend v (s :: rest) n =
      if (findChild n s).isSome then
        .mk n.tag n.text (replaceFirstWith s (createDescend v rest) n.children)
      else
        .mk n.tag n.text
          (n.children ++ [createDescend v rest (.mk s none [])]) := by
  cases rest with
  | nil => exact absurd rfl h
  | cons b t => rfl

theorem setDescend_tag (v : String) (segs : List String) (n n' : Node)
    (h : setDescend v segs n = some n') : n'.tag = n.tag := by
  cases segs with
  | nil => simp [setDescend] at h
  | cons s rest =>
    cases rest with
    | nil =>
      simp only [setDescend, Option.some.injEq] at h
      subst h
      unfold setTerminal
      split <;> rfl
    | cons b t =>
      rw [setDescend_cons v s (b :: t) n (by simp)] at h
      rcases Option.map_eq_some'.mp h with ⟨cs, _, rfl⟩
      rfl

theorem createDescend_tag (v : String) (segs : List String) (n : Node) :
    (createDescend v segs n).tag = n.tag := by
  cases segs with
  | nil => rfl
  | cons s rest =>
    cases rest with
    | nil => rfl
    | cons b t =>
      rw [createDescend_cons v s (b :: t) n (by simp)]
      split <;> rfl

/-- `set` on a multi-segment path succeeds exactly when every INTERMEDIATE
segment already resolves; the terminal segment is never the reason for
failure. -/
theorem setDescend_isSome_iff (v : String) :
    ∀ (segs : List String) (n : Node), segs ≠ [] →
      ((setDescend v segs n).isSome ↔ (findPath n segs.dropLast).isSome)
  | [], _, h => absurd rfl h
  | [last], n, _ => by simp [setDescend, findPath]
  | s :: b :: t, n, _ => by
    rw [setDescend_cons v s (b :: t) n (by simp), isSome_omap,
      intoFirst_isSome]
    have hdl : (s :: b :: t).dropLast = s :: (b :: t).dropLast := rfl
    rw [hdl]
    simp only [findPath, findChild]
    constructor
    · rintro ⟨c, hfind, hsome⟩
      rw [hfind]
      exact (setDescend_isSome_iff v (b :: t) c (by simp)).mp hsome
    · intro h
      cases hfind : n.children.find? fun x => x.tag == s with
      | none => rw [hfind] at h; simp at h
      | some c =>
        rw [hfind] at h
        exact ⟨c, rfl, (setDescend_isSome_iff v (b :: t) c (by simp)).mpr h⟩

theorem findPath_cons (n : Node) (s : String) (rest : List String) :
    findPath n (s :: rest) =
      match findChild n s with
      | none => none
      | some c => findPath c rest := rfl

theorem findPath_singleton (n : Node) (s : String) :
    findPath n [s] = findChild n s := by
  cases h : findChild n s <;> simp [findPath, h]

/-- After a successful multi-segment `set`, the full path resolves (by
first-match descent) to a node whose text is the written value. -/
theorem setDescend_find (v : String) :
    ∀ (segs : List String) (n n' : Node), setDescend v segs n = some n' →
      ∃ m, findPath n' segs = some m ∧ m.text = some v
  | [], n, n', h => by simp [setDescend] at h
  | [last], n, n', h => by
    simp only [setDescend, Option.some.injEq] at h
    subst h
    unfold setTerminal
    by_cases hc : (findChild n last).isSome
    · rw [if_pos hc]
      rcases Option.isSome_iff_exists.mp hc with ⟨c, hc'⟩
      refine ⟨.mk c.tag (some v) c.children, ?_, rfl⟩
      rw [findPath_singleton]
      simp only [findChild, Node.children_mk]
      exact find?_replaceFirstText last v n.children c (by
        simpa [findChild] using hc')
    · rw [if_neg hc]
      refine ⟨.mk last (some v) [], ?_, rfl⟩
      rw [findPath_singleton]
      simp only [findChild, Node.children_mk]
      have hnone : n.children.find? (fun x => x.tag == last) = none := by
        cases hfind : n.children.find? fun x => x.tag == last with
        | none => rfl
        | some c =>
          rw [Option.isSome_iff_exists] at hc
          exact absurd ⟨c, by simpa [findChild] using hfind⟩ hc
      rw [List.find?_append, hnone]
      simp
  | s :: b :: t, n, n', h => by
    rw [setDescend_cons v s (b :: t) n (by simp)] at h
    rcases Option.map_eq_some'.mp h with ⟨cs, hcs, rfl⟩
    rcases intoFirst_spec s (setDescend v (b :: t)) n.children cs hcs with
      ⟨c, c', hfind, hset, hafter⟩
    have htag : c'.tag = c.tag := setDescend_tag v (b :: t) c c' hset
    rcases setDescend_find v (b :: t) c c' hset with ⟨m, hm, hmt⟩
    refine ⟨m, ?_, hmt⟩
    rw [findPath_cons]
    have hfc : findChild (Node.mk n.tag n.text cs) s = some c' := by
      simp only [findChild, Node.children_mk]
      exact hafter htag
    rw [hfc]
    exact hm

/-- Appending children cannot change what a first-match lookup that already
succeeds returns. -/
theorem find?_append_of_some {p : Node → Bool} {cs : List Node} {c : Node}
    (extra : List Node) (h : cs.find? p = some c) :
    (cs ++ extra).find? p = some c := by
  rw [List.find?_append, h]
  rfl

/-- `create_key` appends fresh elements, so every path that already resolved
(by first-match descent) still resolves to the SAME node afterwards: the
pre-existing first match wins over the newly appended sibling. -/
theorem createDescend_find (v : String) :
    ∀ (segs : List String) (n m : Node), segs ≠ [] →
      findPath n segs = some m →
      findPath (createDescend v segs n) segs = some m
  | [], _, _, h, _ => absurd rfl h
  | [last], n, m, _, hfind => by
    rw [findPath_singleton] at hfind
    simp only [createDescend]
    rw [findPath_singleton]
    simp only [findChild, Node.children_mk]
    exact find?_append_of_some _ (by simpa [findChild] using hfind)
  | s :: b :: t, n, m, _, hfind => by
    rw [findPath_cons] at hfind
    cases hfc : findChild n s with
    | none => rw [hfc] at hfind; exact absurd hfind (by simp)
    | some c =>
      rw [hfc] at hfind
      rw [createDescend_cons v s (b :: t) n (by simp),
        if_pos (by rw [hfc]; rfl)]
      rw [findPath_cons]
      have htag : (createDescend v (b :: t) c).tag = c.tag :=
        createDescend_tag v (b :: t) c
      have : findChild
          (Node.mk n.tag n.text
            (replaceFirstWith s (createDescend v (b :: t)) n.children)) s =
          some (createDescend v (b :: t) c) := by
        simp only [findChild, Node.children_mk]
        exact find?_replaceFirstWith s (createDescend v (b :: t)) n.children c
          (by simpa [findChild] using hfc) htag
      rw [this]
      exact createDescend_find v (b :: t) c m (by simp) hfind

/-! ### Backtracking-find (ElementPath pipeline) lemmas -/

theorem selectTag_append (t : String) (ns₁ ns₂ : List Node) :
    selectTag t (ns₁ ++ ns₂) = selectTag t ns₁ ++ selectTag t ns₂ := by
  simp [selectTag]

theorem etSelect_nil_nodes : ∀ segs : List String, etSelect [] segs = []
  | [] => rfl
  | s :: rest => by
    show etSelect (selectTag s []) rest = []
    have : selectTag s [] = [] := rfl
    rw [this]
    exact etSelect_nil_nodes rest

theorem etSelect_append :
    ∀ (segs : List String) (ns₁ ns₂ : List Node),
      etSelect (ns₁ ++ ns₂) segs = etSelect ns₁ segs ++ etSelect ns₂ segs
  | [], _, _ => rfl
  | s :: rest, ns₁, ns₂ => by
    show etSelect (selectTag s (ns₁ ++ ns₂)) rest = _
    rw [selectTag_append]
    exact etSelect_append rest (selectTag s ns₁) (selectTag s ns₂)

theorem head?_etSelect :
    ∀ (cs : List Node) (segs : List String),
      (etSelect cs segs).head? =
        (cs.find? fun c => hasMatch c segs).bind fun c =>
          (etSelect [c] segs).head?
  | [], segs => by simp [etSelect_nil_nodes]
  | c :: cs, segs => by
    have hdec : etSelect (c :: cs) segs = etSelect [c] segs ++ etSelect cs segs := by
      have : c :: cs = [c] ++ cs := rfl
      rw [this, etSelect_append]
    rw [hdec, List.head?_append]
    cases hsel : etSelect [c] segs with
    | nil =>
      have hm : hasMatch c segs = false := by simp [hasMatch, hsel]
      simp only [List.find?_cons, hm, List.head?_nil, Option.none_or]
      exact head?_etSelect cs segs
    | cons a rest =>
      have hm : hasMatch c segs = true := by simp [hasMatch, hsel]
      simp [List.find?_cons, hm, hsel]

theorem etFindPath_nil (n : Node) : etFindPath n [] = some n := rfl

theorem hasMatch_eq_isSome (c : Node) (segs : List String) :
    hasMatch c segs = (etFindPath c segs).isSome := by
  unfold hasMatch etFindPath
  cases etSelect [c] segs <;> rfl

theorem etFindPath_cons (n : Node) (s : String) (rest : List String) :
    etFindPath n (s :: rest) =
      (n.children.find? fun c => c.tag == s && hasMatch c rest).bind fun c =>
        etFindPath c rest := by
  unfold etFindPath
  have h1 : etSelect [n] (s :: rest) =
      etSelect (n.children.filter fun c => c.tag == s) rest := by
    show etSelect (selectTag s [n]) rest = _
    have : selectTag s [n] = n.children.filter fun c => c.tag == s := by
      simp [selectTag]
    rw [this]
  rw [h1, head?_etSelect, List.find?_filter]
  have h2 : (fun c : Node => decide ((c.tag == s) = true ∧ hasMatch c rest = true)) =
      fun c : Node => c.tag == s && hasMatch c rest := by
    funext c
    cases hc : c.tag == s <;> cases hm : hasMatch c rest <;> simp [hc, hm]
  rw [h2]

theorem find?_strengthen (s : String) (q : Node → Bool) :
    ∀ (cs : List Node) (c : Node),
      cs.find? (fun x => x.tag == s) = some c → q c = true →
      cs.find? (fun x => x.tag == s && q x) = some c
  | [], _, h, _ => by simp at h
  | x :: cs, c, h, hq => by
    by_cases hx : x.tag = s
    · have : x = c := by
        have := h
        simp [List.find?_cons, hx] at this
        exact this
      subst this
      simp [List.find?_cons, hx, hq]
    · have h' : cs.find? (fun y => y.tag == s) = some c := by
        simpa [List.find?_cons, hx] using h
      simpa [List.find?_cons, hx] using find?_strengthen s q cs c h' hq

/-- Bridge: when the committed per-segment descent succeeds, its result is
also the first match of ElementTree's backtracking pipeline — so everything
`set`/`create_key` commit to is what a later multi-segment `find` sees
first. -/
theorem findPath_imp_etFindPath :
    ∀ (segs : List String) (n m : Node),
      findPath n segs = some m → etFindPath n segs = some m
  | [], n, m, h => by
    have : n = m := by simpa [findPath] using h
    subst this
    exact etFindPath_nil n
  | s :: rest, n, m, h => by
    rw [findPath_cons] at h
    cases hfc : findChild n s with
    | none => rw [hfc] at h; exact absurd h (by simp)
    | some c =>
      rw [hfc] at h
      have hrec := findPath_imp_etFindPath rest c m h
      have hm : hasMatch c rest = true := by
        rw [hasMatch_eq_isSome, hrec]
        rfl
      rw [etFindPath_cons,
        find?_strengthen s (fun x => hasMatch x rest) n.children c
          (by simpa [findChild] using hfc) hm]
      exact hrec

/-- Python's `split` never returns an empty list. -/
theorem pySplit_ne_nil (sep : Char) (s : String) : pySplit sep s ≠ [] := by
  have : ∀ l : List Char, pySplitChars sep l ≠ [] := by
    intro l
    induction l with
    | nil => simp [pySplitChars]
    | cons c cs ih =>
      simp only [pySplitChars]
      by_cases h : c = sep
      · simp [h]
      · simp only [if_neg h]
        cases hsp : pySplitChars sep cs with
        | nil => simp
        | cons a as => simp
  simp only [pySplit]
  intro hmap
  exact this s.toList (List.map_eq_nil_iff.mp hmap)

/-! ### Flattening (get_all) lemmas -/

/-- The loop body of `get_all`, one direct child of root at a time. -/
def getAllStep (acc : List (String × Option String)) (c : Node) :
    List (String × Option String) :=
  if c.tag == "settings" then
    c.children.foldl (fun a sub => dinsert (c.tag ++ "/" ++ sub.tag) sub.text a) acc
  else dinsert c.tag c.text acc

theorem get_all_eq_foldl (root : Node) :
    TranscriptionConfig.get_all root = root.children.foldl getAllStep [] := rfl

/-- The dictionary keys one direct child of root contributes to `get_all`. -/
def childKeys (c : Node) : List String :=
  if c.tag == "settings" then c.children.map fun sub => c.tag ++ "/" ++ sub.tag
  else [c.tag]

/-- All keys `get_all` emits, in emission order. -/
def emittedKeys (root : Node) : List String :=
  (root.children.map childKeys).flatten

theorem alookup_settingsFold_not_mem (k pref : String) :
    ∀ (subs : List Node) (acc : List (String × Option String)),
      k ∉ subs.map (fun sub => pref ++ "/" ++ sub.tag) →
      alookup k (subs.foldl
        (fun a sub => dinsert (pref ++ "/" ++ sub.tag) sub.text a) acc) =
        alookup k acc
  | [], _, _ => rfl
  | sub :: subs, acc, h => by
    simp only [List.map_cons, List.mem_cons] at h
    push_neg at h
    simp only [List.foldl_cons]
    rw [alookup_settingsFold_not_mem k pref subs _ h.2, alookup_dinsert,
      if_neg fun hk => h.1 hk.symm]

theorem alookup_settingsFold_mem (pref : String) :
    ∀ (subs : List Node) (acc : List (String × Option String)) (sub : Node),
      sub ∈ subs → (subs.map (fun x => pref ++ "/" ++ x.tag)).Nodup →
      alookup (pref ++ "/" ++ sub.tag) (subs.foldl
        (fun a x => dinsert (pref ++ "/" ++ x.tag) x.text a) acc) =
        some sub.text
  | [], _, _, h, _ => absurd h (List.not_mem_nil _)
  | x :: subs, acc, sub, h, hnd => by
    simp only [List.map_cons, List.nodup_cons] at hnd
    rcases List.mem_cons.mp h with heq | hmem
    · subst heq
      simp only [List.foldl_cons]
      rw [alookup_settingsFold_not_mem _ pref subs _ hnd.1, alookup_dinsert,
        if_pos rfl]
    · simp only [List.foldl_cons]
      exact alookup_settingsFold_mem pref subs _ sub hmem hnd.2

theorem alookup_getAllFold_not_mem (k : String) :
    ∀ (cs : List Node) (acc : List (String × Option String)),
      k ∉ (cs.map childKeys).flatten →
      alookup k (cs.foldl getAllStep acc) = alookup k acc
  | [], _, _ => rfl
  | c :: cs, acc, h => by
    simp only [List.map_cons, List.flatten_cons, List.mem_append] at h
    push_neg at h
    simp only [List.foldl_cons]
    rw [alookup_getAllFold_not_mem k cs _ h.2]
    unfold getAllStep
    by_cases hs : c.tag = "settings"
    · rw [if_pos (by simp [hs])]
      exact alookup_settingsFold_not_mem k c.tag c.children acc
        (by simpa [childKeys, hs] using h.1)
    · rw [if_neg (by simp [hs])]
      rw [alookup_dinsert, if_neg ?_]
      intro hk
      have hck : childKeys c = [c.tag] := by simp [childKeys, hs]
      exact h.1 (by simp [hck, hk])

/-- With all emitted keys distinct, each non-`settings` direct child of root
owns the `get_all` entry keyed by its tag, valued at its text. -/
theorem getAllFold_lookup_child :
    ∀ (cs : List Node) (acc : List (String × Option String)) (c : Node),
      c ∈ cs → ((cs.map childKeys).flatten).Nodup → c.tag ≠ "settings" →
      alookup c.tag (cs.foldl getAllStep acc) = some c.text
  | [], _, _, h, _, _ => absurd h (List.not_mem_nil _)
  | x :: cs, acc, c, h, hnd, hns => by
    simp only [List.map_cons, List.flatten_cons] at hnd
    rcases List.mem_cons.mp h with heq | hmem
    · subst heq
      simp only [List.foldl_cons]
      have hck : childKeys c = [c.tag] := by simp [childKeys, hns]
      have hnotk : c.tag ∉ (cs.map childKeys).flatten := by
        have hdisj := List.disjoint_of_nodup_append hnd
        intro hk
        exact hdisj (by simp [hck]) hk
      rw [alookup_getAllFold_not_mem c.tag cs _ hnotk]
      unfold getAllStep
      rw [if_neg (by simp [hns]), alookup_dinsert, if_pos rfl]
    · simp only [List.foldl_cons]
      exact getAllFold_lookup_child cs _ c hmem hnd.of_append_right hns

/-- With all emitted keys distinct, each grandchild under a direct child
tagged `settings` owns the `get_all` entry `settings/<its tag>`, valued at
its text. -/
theorem getAllFold_lookup_sub :
    ∀ (cs : List Node) (acc : List (String × Option String)) (c sub : Node),
      c ∈ cs → ((cs.map childKeys).flatten).Nodup → c.tag = "settings" →
      sub ∈ c.children →
      alookup (c.tag ++ "/" ++ sub.tag) (cs.foldl getAllStep acc) =
        some sub.text
  | [], _, _, _, h, _, _, _ => absurd h (List.not_mem_nil _)
  | x :: cs, acc, c, sub, h, hnd, hs, hsub => by
    simp only [List.map_cons, List.flatten_cons] at hnd
    rcases List.mem_cons.mp h with heq | hmem
    · subst heq
      simp only [List.foldl_cons]
      have hck : childKeys c = c.children.map fun y => c.tag ++ "/" ++ y.tag := by
        simp [childKeys, hs]
      have hkey : (c.tag ++ "/" ++ sub.tag) ∈ childKeys c := by
        rw [hck]
        exact List.mem_map_of_mem _ hsub
      have hnotk : (c.tag ++ "/" ++ sub.tag) ∉ (cs.map childKeys).flatten :=
        fun hk => List.disjoint_of_nodup_append hnd hkey hk
      rw [alookup_getAllFold_not_mem _ cs _ hnotk]
      unfold getAllStep
      rw [if_pos (by simp [hs])]
      exact alookup_settingsFold_mem c.tag c.children acc sub hsub
        (by rw [← hck]; exact hnd.of_append_left)
    · simp only [List.foldl_cons]
      exact getAllFold_lookup_sub cs _ c sub hmem hnd.of_append_right hs hsub

/-! ### Round-trip (write then parse) lemmas -/

theorem textsNonemptyList_append (l₁ l₂ : List Node) :
    textsNonemptyList (l₁ ++ l₂) =
      (textsNonemptyList l₁ && textsNonemptyList l₂) := by
  induction l₁ with
  | nil => simp [textsNonemptyList]
  | cons c cs ih => simp [textsNonemptyList, ih, Bool.and_assoc]

theorem textsNonempty_replaceFirstText (t v : String) (hv : v ≠ "") :
    ∀ cs : List Node, textsNonemptyList cs = true →
      textsNonemptyList (replaceFirstText t v cs) = true
  | [], _ => rfl
  | c :: cs, h => by
    simp only [textsNonemptyList, Bool.and_eq_true] at h
    cases c with
    | mk ct cx ccs =>
      simp only [replaceFirstText, Node.tag_mk]
      by_cases hct : ct = t
      · simp only [beq_iff_eq, if_pos hct, textsNonemptyList, Node.tag_mk]
        simp only [textsNonempty, Bool.and_eq_true] at h ⊢
        exact ⟨⟨by simp [hv], h.1.2⟩, h.2⟩
      · simp only [beq_iff_eq, if_neg hct, textsNonemptyList, Bool.and_eq_true]
        exact ⟨h.1, textsNonempty_replaceFirstText t v hv cs h.2⟩

theorem textsNonempty_intoFirst (t : String) (f : Node → Option Node)
    (hf : ∀ x y, textsNonempty x = true → f x = some y → textsNonempty y = true) :
    ∀ cs cs', textsNonemptyList cs = true → intoFirst t f cs = some cs' →
      textsNonemptyList cs' = true
  | [], _, _, h => by simp [intoFirst] at h
  | c :: cs, cs', hne, h => by
    simp only [textsNonemptyList, Bool.and_eq_true] at hne
    by_cases hct : c.tag = t
    · simp only [intoFirst, beq_iff_eq, if_pos hct] at h
      rcases Option.map_eq_some'.mp h with ⟨c', hc', rfl⟩
      simp only [textsNonemptyList, Bool.and_eq_true]
      exact ⟨hf c c' hne.1 hc', hne.2⟩
    · simp only [intoFirst, beq_iff_eq, if_neg hct] at h
      rcases Option.map_eq_some'.mp h with ⟨cs₀, hcs₀, rfl⟩
      simp only [textsNonemptyList, Bool.and_eq_true]
      exact ⟨hne.1, textsNonempty_intoFirst t f hf cs cs₀ hne.2 hcs₀⟩

theorem textsNonempty_replaceFirstWith (t : String) (f : Node → Node)
    (hf : ∀ x, textsNonempty x = true → textsNonempty (f x) = true) :
    ∀ cs, textsNonemptyList cs = true →
      textsNonemptyList (replaceFirstWith t f cs) = true
  | [], _ => rfl
  | c :: cs, hne => by
    simp only [textsNonemptyList, Bool.and_eq_true] at hne
    by_cases hct : c.tag = t
    · simp only [replaceFirstWith, beq_iff_eq, if_pos hct, textsNonemptyList,
        Bool.and_eq_true]
      exact ⟨hf c hne.1, hne.2⟩
    · simp only [replaceFirstWith, beq_iff_eq, if_neg hct, textsNonemptyList,
        Bool.and_eq_true]
      exact ⟨hne.1, textsNonempty_replaceFirstWith t f hf cs hne.2⟩

theorem textsNonempty_setDescend (v : String) (hv : v ≠ "") :
    ∀ (segs : List String) (n n' : Node), textsNonempty n = true →
      setDescend v segs n = some n' → textsNonempty n' = true
  | [], _, _, _, h => by simp [setDescend] at h
  | [last], n, n', hne, h => by
    simp only [setDescend, Option.some.injEq] at h
    subst h
    cases n with
    | mk t x cs =>
      simp only [textsNonempty, Bool.and_eq_true] at hne
      unfold setTerminal
      split
      · simp only [Node.tag_mk, Node.text_mk, Node.children_mk, textsNonempty,
          Bool.and_eq_true]
        exact ⟨hne.1, textsNonempty_replaceFirstText last v hv cs hne.2⟩
      · simp only [Node.tag_mk, Node.text_mk, Node.children_mk, textsNonempty,
          Bool.and_eq_true]
        refine ⟨hne.1, ?_⟩
        rw [textsNonemptyList_append]
        simp only [Bool.and_eq_true]
        exact ⟨hne.2, by simp [textsNonemptyList, textsNonempty, hv]⟩
  | s :: b :: t, n, n', hne, h => by
    rw [setDescend_cons v s (b :: t) n (by simp)] at h
    rcases Option.map_eq_some'.mp h with ⟨cs, hcs, rfl⟩
    cases n with
    | mk nt nx ncs =>
      simp only [textsNonempty, Bool.and_eq_true] at hne
      simp only [Node.tag_mk, Node.text_mk, Node.children_mk] at hcs ⊢
      simp only [textsNonempty, Bool.and_eq_true]
      refine ⟨hne.1, ?_⟩
      exact textsNonempty_intoFirst s (setDescend v (b :: t))
        (fun x y hx hxy => textsNonempty_setDescend v hv (b :: t) x y hx hxy)
        ncs cs hne.2 hcs

theorem textsNonempty_createDescend (v : String) (hv : v ≠ "") :
    ∀ (segs : List String) (n : Node), textsNonempty n = true →
      textsNonempty (createDescend v segs n) = true
  | [], _, hne => hne
  | [last], n, hne => by
    cases n with
    | mk t x cs =>
      simp only [createDescend, textsNonempty, Bool.and_eq_true] at hne ⊢
      refine ⟨hne.1, ?_⟩
      rw [textsNonemptyList_append]
      simp only [Bool.and_eq_true]
      exact ⟨hne.2, by simp [textsNonemptyList, textsNonempty, hv]⟩
  | s :: b :: t, n, hne => by
    rw [createDescend_cons v s (b :: t) n (by simp)]
    cases n with
    | mk nt nx ncs =>
      simp only [textsNonempty, Bool.and_eq_true] at hne
      split
      · simp only [Node.tag_mk, Node.text_mk, Node.children_mk, textsNonempty,
          Bool.and_eq_true]
        exact ⟨hne.1, textsNonempty_replaceFirstWith s (createDescend v (b :: t))
          (fun x hx => textsNonempty_createDescend v hv (b :: t) x hx) ncs hne.2⟩
      · simp only [Node.tag_mk, Node.text_mk, Node.children_mk, textsNonempty,
          Bool.and_eq_true]
        refine ⟨hne.1, ?_⟩
        rw [textsNonemptyList_append]
        simp only [Bool.and_eq_true]
        refine ⟨hne.2, ?_⟩
        have := textsNonempty_createDescend v hv (b :: t) (.mk s none [])
          (by simp [textsNonempty, textsNonemptyList])
        simp [textsNonemptyList, this]

/-- `set` with a nonempty value keeps every text in the tree nonempty. -/
theorem textsNonempty_set (n n' : Node) (k v : String) (hv : v ≠ "")
    (hne : textsNonempty n = true) (h : TranscriptionConfig.set n k v = some n') :
    textsNonempty n' = true := by
  unfold TranscriptionConfig.set at h
  cases hsp : pySplit '/' k with
  | nil => rw [hsp] at h; simp at h
  | cons s rest =>
    rw [hsp] at h
    cases rest with
    | nil =>
      simp only [Option.some.injEq] at h
      subst h
      cases n with
      | mk t x cs =>
        simp only [textsNonempty, Bool.and_eq_true] at hne ⊢
        exact ⟨by simp [hv], hne.2⟩
    | cons b tl =>
      have h2 : (if (s :: b :: tl).all segmentPlain = true then
          setDescend v (s :: b :: tl) n else none) = some n' := h
      by_cases hall : ((s :: b :: tl).all segmentPlain) = true
      · rw [if_pos hall] at h2
        exact textsNonempty_setDescend v hv (s :: b :: tl) n n' hne h2
      · rw [if_neg hall] at h2
        simp at h2

/-- `create_key` with a nonempty value keeps every text in the tree
nonempty. -/
theorem textsNonempty_create (n n' : Node) (k v : String) (hv : v ≠ "")
    (hne : textsNonempty n = true)
    (h : TranscriptionConfig.create_key n k v = some n') :
    textsNonempty n' = true := by
  unfold TranscriptionConfig.create_key at h
  cases hsp : pySplit '/' k with
  | nil => rw [hsp] at h; simp at h
  | cons s rest =>
    rw [hsp] at h
    cases rest with
    | nil =>
      simp only [Option.some.injEq] at h
      subst h
      cases n with
      | mk t x cs =>
        simp only [textsNonempty, Bool.and_eq_true] at hne ⊢
        refine ⟨hne.1, ?_⟩
        rw [textsNonemptyList_append]
        simp only [Bool.and_eq_true]
        exact ⟨hne.2, by simp [textsNonemptyList, textsNonempty, hv]⟩
    | cons b tl =>
      have h2 : (if (s :: b :: tl).all segmentPlain = true then
          some (createDescend v (s :: b :: tl) n) else none) = some n' := h
      by_cases hall : ((s :: b :: tl).all segmentPlain) = true
      · rw [if_pos hall, Option.some.injEq] at h2
        subst h2
        exact textsNonempty_createDescend v hv (s :: b :: tl) n hne
      · rw [if_neg hall] at h2
        simp at h2

/-- Any sequence of set/create_key operations with nonempty values preserves
nonemptiness of all texts. -/
theorem textsNonempty_applyOps :
    ∀ (ops : List Op) (n : Node), (∀ op ∈ ops, op.value ≠ "") →
      textsNonempty n = true → textsNonempty (applyOps n ops) = true
  | [], _, _, hne => hne
  | op :: ops, n, hops, hne => by
    have hop : op.value ≠ "" := hops op (by simp)
    have hrest : ∀ o ∈ ops, o.value ≠ "" := fun o ho =>
      hops o (List.mem_cons_of_mem _ ho)
    have hstep : textsNonempty (applyOp n op) = true := by
      cases op with
      | setv k v =>
        show textsNonempty ((TranscriptionConfig.set n k v).getD n) = true
        cases hs : TranscriptionConfig.set n k v with
        | none => exact hne
        | some n' => exact textsNonempty_set n n' k v hop hne hs
      | createv k v =>
        show textsNonempty ((TranscriptionConfig.create_key n k v).getD n) = true
        cases hs : TranscriptionConfig.create_key n k v with
        | none => exact hne
        | some n' => exact textsNonempty_create n n' k v hop hne hs
    simpa [applyOps, List.foldl_cons] using
      textsNonempty_applyOps ops (applyOp n op) hrest hstep

/-! ### Claim theorems -/

/-- C1: three-layer precedence.  In the resolved view computed by the store
(defaults, then document values, then non-null CLI overrides, later layers
overwriting), for every key independently: a non-null override wins over
document and defaults; with no non-null override, a document key reads its
document value; with neither, the key reads straight from defaults (so a key
present only in overrides is visible, and a key present in defaults and the
document reads the document value). -/
theorem C1_three_layer_precedence
    (defaults docFlat : List (String × String))
    (overrides : List (String × Option String)) (k : String)
    (hdoc : (docFlat.map Prod.fst).Nodup)
    (hovr : (overrides.map Prod.fst).Nodup) :
    (∀ v, (k, some v) ∈ overrides →
      alookup k (computeResolved defaults docFlat overrides) = some v) ∧
    ((∀ v, (k, some v) ∉ overrides) → ∀ v, (k, v) ∈ docFlat →
      alookup k (computeResolved defaults docFlat overrides) = some v) ∧
    ((∀ v, (k, some v) ∉ overrides) → k ∉ docFlat.map Prod.fst →
      alookup k (computeResolved defaults docFlat overrides) =
        alookup k defaults) := by
  unfold computeResolved
  refine ⟨?_, ?_, ?_⟩
  · intro v hv
    exact alookup_ovrFold_mem k v overrides _ hv hovr
  · intro hno v hv
    rw [alookup_ovrFold_not_mem k overrides _ hno]
    exact alookup_docFold_mem k v docFlat _ hv hdoc
  · intro hno hnotdoc
    rw [alookup_ovrFold_not_mem k overrides _ hno]
    exact alookup_docFold_not_mem k docFlat _ hnotdoc

/-- C1 witness: with `defaults = {model: base}`, document `{settings/model:
small}`, and overrides `{model: unset, hf_token: tok123}`, the key present
only in overrides resolves to its override value. -/
theorem C1_witness :
    alookup "hf_token"
      (computeResolved [("model", "base")] [("settings/model", "small")]
        [("model", none), ("hf_token", some "tok123")]) = some "tok123" :=
  (C1_three_layer_precedence [("model", "base")] [("settings/model", "small")]
    [("model", none), ("hf_token", some "tok123")] "hf_token"
    (by decide) (by decide)).1 "tok123" (by decide)

/-- C2 counterexample: on a document whose root has no child `a`, the
structurally valid multi-segment path `a/b` makes `set` return `False`
(tree unchanged) instead of creating the missing intermediate node. -/
theorem C2_counterexample :
    TranscriptionConfig.set (.mk "config" none []) "a/b" "v" = none := rfl

/-- C2 (amended): for a plain multi-segment path, `set` succeeds exactly
when every INTERMEDIATE node along the path already exists; it creates a
missing terminal node, but fails (returns `False`, tree unchanged) when an
intermediate node is absent.  Create-on-demand of intermediates lives in
`create_key`, not `set`. -/
theorem C2_set_needs_intermediates (root : Node) (k v : String)
    (hplain : pathPlain k = true) (hlen : 2 ≤ (pySplit '/' k).length) :
    (TranscriptionConfig.set root k v).isSome = true ↔
      (findPath root (pySplit '/' k).dropLast).isSome = true := by
  cases hsp : pySplit '/' k with
  | nil => rw [hsp] at hlen; simp at hlen
  | cons s rest =>
    cases rest with
    | nil => rw [hsp] at hlen; simp at hlen
    | cons b tl =>
      have hall : (s :: b :: tl).all segmentPlain = true := by
        have h2 := hplain
        unfold pathPlain at h2
        rw [hsp] at h2
        exact h2
      have hset : TranscriptionConfig.set root k v =
          setDescend v (s :: b :: tl) root := by
        unfold TranscriptionConfig.set
        rw [hsp]
        show (if (s :: b :: tl).all segmentPlain = true then
          setDescend v (s :: b :: tl) root else none) = _
        rw [if_pos hall]
      rw [hset]
      exact setDescend_isSome_iff v (s :: b :: tl) root (by simp)

/-- C2 witness: with the intermediate `a` present, `set "a/b"` succeeds even
though the terminal `b` is absent. -/
theorem C2_witness :
    (TranscriptionConfig.set (.mk "config" none [.mk "a" none []]) "a/b"
        "v").isSome = true ↔
      (findPath (.mk "config" none [.mk "a" none []])
        (pySplit '/' "a/b").dropLast).isSome = true :=
  C2_set_needs_intermediates (.mk "config" none [.mk "a" none []]) "a/b" "v"
    (by decide) (by decide)

/-- C3 counterexample: for the single-segment key `a`, `set` succeeds but
writes the ROOT element's own text, so the immediately following `get`
(which looks up a CHILD named `a`) does not return the written value. -/
theorem C3_counterexample :
    TranscriptionConfig.set (.mk "config" none []) "a" "v" =
      some (.mk "config" (some "v") []) ∧
    TranscriptionConfig.get (.mk "config" (some "v") []) "a" = .ok none ∧
    (Except.ok none : Except Unit (Option String)) ≠ .ok (some "v") :=
  ⟨rfl, rfl, by simp⟩

/-- C3 (amended): read-your-writes holds for plain MULTI-segment keys: a
successful `set(k, v)` immediately followed by `get(k)` on the same tree
returns `v`, before any save.  (For single-segment keys `set` writes the
root element's text, which `get` never reads.) -/
theorem C3_read_your_writes (root root' : Node) (k v : String)
    (hplain : pathPlain k = true) (hlen : 2 ≤ (pySplit '/' k).length)
    (hset : TranscriptionConfig.set root k v = some root') :
    TranscriptionConfig.get root' k = .ok (some v) := by
  cases hsp : pySplit '/' k with
  | nil => rw [hsp] at hlen; simp at hlen
  | cons s rest =>
    cases rest with
    | nil => rw [hsp] at hlen; simp at hlen
    | cons b tl =>
      have hall : (s :: b :: tl).all segmentPlain = true := by
        have h2 := hplain
        unfold pathPlain at h2
        rw [hsp] at h2
        exact h2
      have hset2 : setDescend v (s :: b :: tl) root = some root' := by
        rw [← hset]
        unfold TranscriptionConfig.set
        rw [hsp]
        show _ = (if (s :: b :: tl).all segmentPlain = true then
          setDescend v (s :: b :: tl) root else none)
        rw [if_pos hall]
      rcases setDescend_find v (s :: b :: tl) root root' hset2 with ⟨m, hm, hmt⟩
      have hm' : etFindPath root' (s :: b :: tl) = some m :=
        findPath_imp_etFindPath (s :: b :: tl) root' m hm
      unfold TranscriptionConfig.get etFind
      rw [if_pos hplain, hsp, hm']
      show Except.ok m.text = .ok (some v)
      rw [hmt]

/-- C3 witness: on a document with an (empty) `settings` container,
`set("settings/model", "small")` succeeds and the immediate `get` observes
the written value. -/
theorem C3_witness :
    TranscriptionConfig.get
      (.mk "config" none [.mk "settings" none [.mk "model" (some "small") []]])
      "settings/model" = .ok (some "small") :=
  C3_read_your_writes (.mk "config" none [.mk "settings" none []])
    (.mk "config" none [.mk "settings" none [.mk "model" (some "small") []]])
    "settings/model" "small" (by decide) (by decide) rfl

/-- C4 counterexample: on a document where `p/c` already exists with value
`old`, `create_key("p/c", "new")` and `set("p/c", "new")` are observably
different: after `create_key` the lookup still returns `old` (a duplicate
sibling was appended and first-match lookup wins), while after `set` it
returns `new`; the trees differ structurally (`p` has two `c` children
versus one). -/
theorem C4_counterexample :
    (TranscriptionConfig.create_key
        (.mk "config" none [.mk "p" none [.mk "c" (some "old") []]])
        "p/c" "new").map (fun r => TranscriptionConfig.get r "p/c") =
      some (.ok (some "old")) ∧
    (TranscriptionConfig.set
        (.mk "config" none [.mk "p" none [.mk "c" (some "old") []]])
        "p/c" "new").map (fun r => TranscriptionConfig.get r "p/c") =
      some (.ok (some "new")) ∧
    (TranscriptionConfig.create_key
        (.mk "config" none [.mk "p" none [.mk "c" (some "old") []]])
        "p/c" "new").map (fun r => r.children.map fun c => c.children.length) ≠
    (TranscriptionConfig.set
        (.mk "config" none [.mk "p" none [.mk "c" (some "old") []]])
        "p/c" "new").map (fun r => r.children.map fun c => c.children.length) :=
  ⟨rfl, rfl, by decide⟩

/-- C4 (amended): `create_key` on a plain key always succeeds (it never
raises an already-exists error), but it is NOT set: it unconditionally
appends a fresh terminal element (creating missing intermediates on the
way), so when the key already resolves, the pre-existing first match — and
therefore the value `get` returns — is unchanged, the new value hiding
behind a duplicate sibling. -/
theorem C4_create_appends (root : Node) (k v : String)
    (hplain : pathPlain k = true) :
    (TranscriptionConfig.create_key root k v).isSome = true ∧
    ∀ root' m, TranscriptionConfig.create_key root k v = some root' →
      findPath root (pySplit '/' k) = some m →
      TranscriptionConfig.get root' k = .ok m.text := by
  cases hsp : pySplit '/' k with
  | nil => exact absurd hsp (pySplit_ne_nil '/' k)
  | cons s rest =>
    have hall : (s :: rest).all segmentPlain = true := by
      have h2 := hplain
      unfold pathPlain at h2
      rw [hsp] at h2
      exact h2
    cases rest with
    | nil =>
      have hck : TranscriptionConfig.create_key root k v =
          some (.mk root.tag root.text
            (root.children ++ [.mk s (some v) []])) := by
        unfold TranscriptionConfig.create_key
        rw [hsp]
      refine ⟨by rw [hck]; rfl, ?_⟩
      intro root' m hroot' hfind
      rw [hck, Option.some.injEq] at hroot'
      subst hroot'
      rw [findPath_singleton] at hfind
      unfold TranscriptionConfig.get etFind
      rw [if_pos hplain, hsp]
      have hcommitted : findPath (Node.mk root.tag root.text
          (root.children ++ [Node.mk s (some v) []])) [s] = some m := by
        rw [findPath_singleton]
        simp only [findChild, Node.children_mk]
        exact find?_append_of_some _ (by simpa [findChild] using hfind)
      rw [findPath_imp_etFindPath [s] _ m hcommitted]
    | cons b tl =>
      have hck : TranscriptionConfig.create_key root k v =
          some (createDescend v (s :: b :: tl) root) := by
        unfold TranscriptionConfig.create_key
        rw [hsp]
        show (if (s :: b :: tl).all segmentPlain = true then
          some (createDescend v (s :: b :: tl) root) else none) = _
        rw [if_pos hall]
      refine ⟨by rw [hck]; rfl, ?_⟩
      intro root' m hroot' hfind
      rw [hck, Option.some.injEq] at hroot'
      subst hroot'
      unfold TranscriptionConfig.get etFind
      rw [if_pos hplain, hsp,
        findPath_imp_etFindPath (s :: b :: tl) _ m
          (createDescend_find v (s :: b :: tl) root m (by simp) hfind)]

/-- C4 witness: creating over the existing key `p/c` succeeds, and the
following lookup still observes the pre-existing value `old`. -/
theorem C4_witness :
    TranscriptionConfig.get
      (.mk "config" none
        [.mk "p" none [.mk "c" (some "old") [], .mk "c" (some "new") []]])
      "p/c" = .ok ((Node.mk "c" (some "old") []).text) :=
  (C4_create_appends
      (.mk "config" none [.mk "p" none [.mk "c" (some "old") []]])
      "p/c" "new" (by decide)).2
    (.mk "config" none
      [.mk "p" none [.mk "c" (some "old") [], .mk "c" (some "new") []]])
    (.mk "c" (some "old") []) rfl rfl

/-- C5 counterexample: a configuration file that parses but FAILS schema
validation does not abort construction: `validate_configxml` only logs the
`DocumentInvalid` failure, `TranscriptionConfig` is constructed anyway, and
the resulting store is live — `get` answers from it.  No
`ConfigurationError` exists anywhere in the code. -/
theorem C5_counterexample :
    mainBuildConfig
        ⟨some (.mk "config" none [.mk "audiodir" (some "files") []]),
          true, false⟩ =
      .ok (.errorDocumentInvalid,
        .mk "config" none [.mk "audiodir" (some "files") []]) ∧
    TranscriptionConfig.get
        (.mk "config" none [.mk "audiodir" (some "files") []]) "audiodir" =
      .ok (some "files") :=
  ⟨rfl, rfl⟩

/-- C5 (amended): schema-validation failure is advisory: it is logged (as
`DocumentInvalid` when the schema itself loaded) and construction proceeds
to a fully usable store for ANY parseable document; only an unparseable
document aborts construction, and then by an uncaught parse exception, not
by a `ConfigurationError(FileFormatError)`. -/
theorem C5_validation_advisory (env : XmlEnv) :
    (∀ r, env.parses = some r →
      mainBuildConfig env = .ok (validate_configxml env, r) ∧
      (env.schemaOk = true → env.valid = false →
        validate_configxml env = .errorDocumentInvalid)) ∧
    (env.parses = none → mainBuildConfig env = .error ()) := by
  obtain ⟨p, sok, val⟩ := env
  constructor
  · intro r hr
    cases p with
    | none => exact absurd hr (by simp)
    | some r0 =>
      have : r0 = r := by simpa using hr
      subst this
      refine ⟨rfl, ?_⟩
      intro hsok hval
      subst hsok
      subst hval
      rfl
  · intro hp
    cases p with
    | none => rfl
    | some r0 => exact absurd hp (by simp)

/-- C5 witness: a parseable but schema-invalid document yields a live store
and the `DocumentInvalid` log notice. -/
theorem C5_witness :
    mainBuildConfig ⟨some (.mk "config" none []), true, false⟩ =
      .ok (validate_configxml ⟨some (.mk "config" none []), true, false⟩,
        .mk "config" none []) ∧
    validate_configxml ⟨some (.mk "config" none []), true, false⟩ =
      .errorDocumentInvalid :=
  ⟨((C5_validation_advisory ⟨some (.mk "config" none []), true, false⟩).1
      (.mk "config" none []) rfl).1,
    ((C5_validation_advisory ⟨some (.mk "config" none []), true, false⟩).1
      (.mk "config" none []) rfl).2 rfl rfl⟩

/-- C6 counterexample: with duplicate siblings `a` (permitted by the data
model), the second `delete_key("a")` is NOT a no-op: it succeeds again and
removes the second sibling, so the state after two calls differs from the
state after one. -/
theorem C6_counterexample :
    TranscriptionConfig.delete_key
        (.mk "config" none [.mk "a" (some "1") [], .mk "a" (some "2") []])
        "a" = some (.mk "config" none [.mk "a" (some "2") []]) ∧
    TranscriptionConfig.delete_key
        (.mk "config" none [.mk "a" (some "2") []]) "a" =
      some (.mk "config" none []) ∧
    (Node.mk "config" none [] : Node).children.length ≠
      (Node.mk "config" none [.mk "a" (some "2") []] : Node).children.length :=
  ⟨rfl, rfl, by decide⟩

/-- C7 counterexample: a direct child `group` that itself has children but
is not literally tagged `settings` is NOT expanded: `get_all` emits the
single entry `group` (with absent value) and no `group/x` entry. -/
theorem C7_counterexample :
    TranscriptionConfig.get_all
        (.mk "config" none [.mk "group" none [.mk "x" (some "1") []]]) =
      [("group", none)] ∧
    alookup "group/x" (TranscriptionConfig.get_all
        (.mk "config" none [.mk "group" none [.mk "x" (some "1") []]])) =
      none :=
  ⟨rfl, rfl⟩

/-- C7 (amended): with all emitted keys distinct, `get_all` gives every
non-`settings` direct child of root one entry keyed by its tag and valued
at its text, and expands the grandchildren of a child LITERALLY tagged
`settings` as entries `settings/<grandchild tag>`; no other grouping node
is expanded. -/
theorem C7_two_level_flatten (root : Node)
    (hnd : (emittedKeys root).Nodup) :
    (∀ c ∈ root.children, c.tag ≠ "settings" →
      alookup c.tag (TranscriptionConfig.get_all root) = some c.text) ∧
    (∀ c ∈ root.children, c.tag = "settings" → ∀ sub ∈ c.children,
      alookup (c.tag ++ "/" ++ sub.tag) (TranscriptionConfig.get_all root) =
        some sub.text) := by
  constructor
  · intro c hc hns
    rw [get_all_eq_foldl]
    exact getAllFold_lookup_child root.children [] c hc hnd hns
  · intro c hc hs sub hsub
    rw [get_all_eq_foldl]
    exact getAllFold_lookup_sub root.children [] c sub hc hnd hs hsub

/-- C7 witness: on a document with a plain key, a `settings` container, and
a non-`settings` grouping child, both lookup clauses hold concretely. -/
theorem C7_witness :
    alookup "audiodir" (TranscriptionConfig.get_all
      (.mk "config" none [.mk "audiodir" (some "files") [],
        .mk "settings" none [.mk "model" (some "base") []],
        .mk "group" none [.mk "x" (some "1") []]])) = some (some "files") ∧
    alookup ((Node.mk "settings" none [.mk "model" (some "base") []]).tag
        ++ "/" ++ (Node.mk "model" (some "base") []).tag)
      (TranscriptionConfig.get_all
        (.mk "config" none [.mk "audiodir" (some "files") [],
          .mk "settings" none [.mk "model" (some "base") []],
          .mk "group" none [.mk "x" (some "1") []]])) = some (some "base") :=
  ⟨(C7_two_level_flatten
      (.mk "config" none [.mk "audiodir" (some "files") [],
        .mk "settings" none [.mk "model" (some "base") []],
        .mk "group" none [.mk "x" (some "1") []]]) (by decide)).1
    (.mk "audiodir" (some "files") []) (List.mem_cons_self _ _) (by decide),
  (C7_two_level_flatten
      (.mk "config" none [.mk "audiodir" (some "files") [],
        .mk "settings" none [.mk "model" (some "base") []],
        .mk "group" none [.mk "x" (some "1") []]]) (by decide)).2
    (.mk "settings" none [.mk "model" (some "base") []])
    (List.mem_cons_of_mem _ (List.mem_cons_self _ _)) rfl
    (.mk "model" (some "base") []) (List.mem_cons_self _ _)⟩

/-- C9 counterexample: `get` is called with the malformed path `a[`; the
`find` call sits OUTSIDE the `try` block, so the resulting `SyntaxError`
(invalid predicate) propagates to the caller instead of returning absent. -/
theorem C9_counterexample :
    TranscriptionConfig.get (.mk "config" none []) "a[" = .error () := rfl

/-! ### Delete lemmas on the backtracking parent lookup -/

theorem intoFirstWith_isSome (p : Node → Bool) (f : Node → Option Node) :
    ∀ cs, (intoFirstWith p f cs).isSome ↔
      ∃ c, cs.find? p = some c ∧ (f c).isSome
  | [] => by simp [intoFirstWith]
  | x :: cs => by
    by_cases hx : p x = true
    · simp [intoFirstWith, hx, List.find?_cons, Option.isSome_map]
    · have hx' : p x = false := by cases h : p x with
        | true => exact absurd h hx
        | false => rfl
      simp only [intoFirstWith, hx', Bool.false_eq_true, if_false, isSome_omap]
      rw [intoFirstWith_isSome p f cs]
      simp [List.find?_cons, hx']

theorem intoFirstWith_decomp (p : Node → Bool) (f : Node → Option Node) :
    ∀ cs cs', intoFirstWith p f cs = some cs' →
      ∃ pre c post c', cs = pre ++ c :: post ∧ cs' = pre ++ c' :: post ∧
        (∀ x ∈ pre, p x = false) ∧ p c = true ∧ f c = some c'
  | [], _, h => by simp [intoFirstWith] at h
  | x :: cs, cs', h => by
    by_cases hx : p x = true
    · simp only [intoFirstWith, hx, if_true] at h
      rcases Option.map_eq_some'.mp h with ⟨x', hx', rfl⟩
      exact ⟨[], x, cs, x', rfl, rfl, by simp, hx, hx'⟩
    · have hx' : p x = false := by cases h2 : p x with
        | true => exact absurd h2 hx
        | false => rfl
      simp only [intoFirstWith, hx', Bool.false_eq_true, if_false] at h
      rcases Option.map_eq_some'.mp h with ⟨cs₀, hcs₀, rfl⟩
      rcases intoFirstWith_decomp p f cs cs₀ hcs₀ with
        ⟨pre, c, post, c', hcs, hcs'0, hpre, hc, hfc⟩
      exact ⟨x :: pre, c, post, c', by rw [hcs]; rfl, by rw [hcs'0]; rfl,
        by
          intro y hy
          rcases List.mem_cons.mp hy with rfl | hy'
          · exact hx'
          · exact hpre y hy',
        hc, hfc⟩

theorem delDescend_tag (last : String) :
    ∀ (init : List String) (n n' : Node),
      delDescend last n init = some n' → n'.tag = n.tag
  | [], n, n', h => by
    simp only [delDescend] at h
    rcases Option.map_eq_some'.mp h with ⟨cs, _, rfl⟩
    rfl
  | s :: rest, n, n', h => by
    simp only [delDescend] at h
    rcases Option.map_eq_some'.mp h with ⟨cs, _, rfl⟩
    rfl

theorem find?_of_decomp (p : Node → Bool) :
    ∀ (pre : List Node) (c : Node) (post : List Node),
      (∀ x ∈ pre, p x = false) → p c = true →
      (pre ++ c :: post).find? p = some c
  | [], c, post, _, hc => by simp [List.find?_cons, hc]
  | x :: pre, c, post, hpre, hc => by
    have hx : p x = false := hpre x (by simp)
    simp only [List.cons_append, List.find?_cons, hx]
    exact find?_of_decomp p pre c post
      (fun y hy => hpre y (List.mem_cons_of_mem _ hy)) hc

/-- A successful `delete_key` located the document-order-first match `p` of
the leading segments, removed the first terminal-tagged child from it, and
in the resulting tree the leading segments again resolve — to the rebuilt
parent. -/
theorem delDescend_spec (last : String) :
    ∀ (init : List String) (n n' : Node), delDescend last n init = some n' →
      ∃ p cs', etFindPath n init = some p ∧
        removeFirstChild last p.children = some cs' ∧
        etFindPath n' init = some (.mk p.tag p.text cs')
  | [], n, n', h => by
    simp only [delDescend] at h
    rcases Option.map_eq_some'.mp h with ⟨cs, hcs, rfl⟩
    exact ⟨n, cs, etFindPath_nil n, hcs, etFindPath_nil _⟩
  | s :: rest, n, n', h => by
    simp only [delDescend] at h
    rcases Option.map_eq_some'.mp h with ⟨cs₁, hcs₁, rfl⟩
    rcases intoFirstWith_decomp _ _ n.children cs₁ hcs₁ with
      ⟨pre, c, post, c', hchil, hcs₁eq, hpre, hc, hfc⟩
    rcases delDescend_spec last rest c c' hfc with ⟨p, cs'', h1, h2, h3⟩
    simp only [Bool.and_eq_true] at hc
    have htagc' : c'.tag = c.tag := delDescend_tag last rest c c' hfc
    refine ⟨p, cs'', ?_, h2, ?_⟩
    · rw [etFindPath_cons, hchil,
        find?_of_decomp _ pre c post hpre (by simp [hc.1, hc.2])]
      exact h1
    · rw [etFindPath_cons]
      have hfind' : ((Node.mk n.tag n.text cs₁).children.find? fun x =>
          x.tag == s && hasMatch x rest) = some c' := by
        simp only [Node.children_mk]
        rw [hcs₁eq]
        refine find?_of_decomp _ pre c' post hpre ?_
        have hm : hasMatch c' rest = true := by
          rw [hasMatch_eq_isSome, h3]
          rfl
        simp [htagc', hc.1, hm]
      rw [hfind']
      exact h3

/-- `delete_key` succeeds exactly when its target element (first terminal
child under the first prefix match) exists. -/
theorem delDescend_isSome_iff (last : String) :
    ∀ (init : List String) (n : Node),
      (delDescend last n init).isSome ↔ (deleteTarget n init last).isSome
  | [], n => by
    simp only [delDescend, isSome_omap]
    rw [removeFirstChild_isSome]
    unfold deleteTarget
    rw [etFindPath_nil]
    simp only [Option.some_bind, findChild]
  | s :: rest, n => by
    simp only [delDescend, isSome_omap]
    rw [intoFirstWith_isSome]
    unfold deleteTarget
    rw [etFindPath_cons]
    cases hfind : n.children.find? fun c => c.tag == s && hasMatch c rest with
    | none => simp [hfind]
    | some c =>
      simp only [hfind, Option.some.injEq, Option.some_bind]
      constructor
      · rintro ⟨c0, hc0, hsome⟩
        cases hc0
        exact (delDescend_isSome_iff last rest c).mp hsome
      · intro h
        exact ⟨c, rfl, (delDescend_isSome_iff last rest c).mpr h⟩

/-! ### XML well-formedness preservation -/

theorem xmlOkList_append (l₁ l₂ : List Node) :
    xmlOkList (l₁ ++ l₂) = (xmlOkList l₁ && xmlOkList l₂) := by
  induction l₁ with
  | nil => simp [xmlOkList]
  | cons c cs ih => simp [xmlOkList, ih, Bool.and_assoc]

theorem xmlOk_replaceFirstText (t v : String)
    (hv : v.toList.all xmlCharOk = true) :
    ∀ cs : List Node, xmlOkList cs = true →
      xmlOkList (replaceFirstText t v cs) = true
  | [], _ => rfl
  | c :: cs, h => by
    simp only [xmlOkList, Bool.and_eq_true] at h
    cases c with
    | mk ct cx ccs =>
      simp only [replaceFirstText, Node.tag_mk]
      by_cases hct : ct = t
      · simp only [beq_iff_eq, if_pos hct, xmlOkList, Bool.and_eq_true]
        simp only [xmlOk, Bool.and_eq_true] at h ⊢
        exact ⟨⟨⟨h.1.1.1, hv⟩, h.1.2⟩, h.2⟩
      · simp only [beq_iff_eq, if_neg hct, xmlOkList, Bool.and_eq_true]
        exact ⟨h.1, xmlOk_replaceFirstText t v hv cs h.2⟩

theorem xmlOk_intoFirst (t : String) (f : Node → Option Node)
    (hf : ∀ x y, xmlOk x = true → f x = some y → xmlOk y = true) :
    ∀ cs cs', xmlOkList cs = true → intoFirst t f cs = some cs' →
      xmlOkList cs' = true
  | [], _, _, h => by simp [intoFirst] at h
  | c :: cs, cs', hok, h => by
    simp only [xmlOkList, Bool.and_eq_true] at hok
    by_cases hct : c.tag = t
    · simp only [intoFirst, beq_iff_eq, if_pos hct] at h
      rcases Option.map_eq_some'.mp h with ⟨c', hc', rfl⟩
      simp only [xmlOkList, Bool.and_eq_true]
      exact ⟨hf c c' hok.1 hc', hok.2⟩
    · simp only [intoFirst, beq_iff_eq, if_neg hct] at h
      rcases Option.map_eq_some'.mp h with ⟨cs₀, hcs₀, rfl⟩
      simp only [xmlOkList, Bool.and_eq_true]
      exact ⟨hok.1, xmlOk_intoFirst t f hf cs cs₀ hok.2 hcs₀⟩

theorem xmlOk_replaceFirstWith (t : String) (f : Node → Node)
    (hf : ∀ x, xmlOk x = true → xmlOk (f x) = true) :
    ∀ cs, xmlOkList cs = true → xmlOkList (replaceFirstWith t f cs) = true
  | [], _ => rfl
  | c :: cs, hok => by
    simp only [xmlOkList, Bool.and_eq_true] at hok
    by_cases hct : c.tag = t
    · simp only [replaceFirstWith, beq_iff_eq, if_pos hct, xmlOkList,
        Bool.and_eq_true]
      exact ⟨hf c hok.1, hok.2⟩
    · simp only [replaceFirstWith, beq_iff_eq, if_neg hct, xmlOkList,
        Bool.and_eq_true]
      exact ⟨hok.1, xmlOk_replaceFirstWith t f hf cs hok.2⟩

theorem xmlOk_setDescend (v : String) (hv : v.toList.all xmlCharOk = true) :
    ∀ (segs : List String), segs.all xmlNameOk = true →
      ∀ (n n' : Node), xmlOk n = true → setDescend v segs n = some n' →
        xmlOk n' = true
  | [], _, _, _, _, h => by simp [setDescend] at h
  | [last], hsegs, n, n', hok, h => by
    have hlast : xmlNameOk last = true := by simpa using hsegs
    simp only [setDescend, Option.some.injEq] at h
    subst h
    cases n with
    | mk t x cs =>
      simp only [xmlOk, Bool.and_eq_true] at hok
      unfold setTerminal
      split
      · simp only [Node.tag_mk, Node.text_mk, Node.children_mk, xmlOk,
          Bool.and_eq_true]
        exact ⟨hok.1, xmlOk_replaceFirstText last v hv cs hok.2⟩
      · simp only [Node.tag_mk, Node.text_mk, Node.children_mk, xmlOk,
          Bool.and_eq_true]
        refine ⟨hok.1, ?_⟩
        rw [xmlOkList_append]
        simp only [Bool.and_eq_true]
        have hleaf : xmlOk (.mk last (some v) []) = true := by
          simp only [xmlOk, Bool.and_eq_true]
          exact ⟨⟨hlast, hv⟩, rfl⟩
        exact ⟨hok.2, by simp [xmlOkList, hleaf]⟩
  | s :: b :: t, hsegs, n, n', hok, h => by
    have hsegs' : (b :: t).all xmlNameOk = true := by
      simp only [List.all_cons, Bool.and_eq_true] at hsegs ⊢
      exact hsegs.2
    rw [setDescend_cons v s (b :: t) n (by simp)] at h
    rcases Option.map_eq_some'.mp h with ⟨cs, hcs, rfl⟩
    cases n with
    | mk nt nx ncs =>
      simp only [xmlOk, Bool.and_eq_true] at hok
      simp only [Node.tag_mk, Node.text_mk, Node.children_mk] at hcs ⊢
      simp only [xmlOk, Bool.and_eq_true]
      refine ⟨hok.1, ?_⟩
      exact xmlOk_intoFirst s (setDescend v (b :: t))
        (fun x y hx hxy => xmlOk_setDescend v hv (b :: t) hsegs' x y hx hxy)
        ncs cs hok.2 hcs

theorem xmlOk_createDescend (v : String) (hv : v.toList.all xmlCharOk = true) :
    ∀ (segs : List String), segs.all xmlNameOk = true →
      ∀ (n : Node), xmlOk n = true → xmlOk (createDescend v segs n) = true
  | [], _, _, hok => hok
  | [last], hsegs, n, hok => by
    have hlast : xmlNameOk last = true := by simpa using hsegs
    cases n with
    | mk t x cs =>
      simp only [createDescend, xmlOk, Bool.and_eq_true] at hok ⊢
      refine ⟨hok.1, ?_⟩
      rw [xmlOkList_append]
      simp only [Bool.and_eq_true]
      have hleaf : xmlOk (.mk last (some v) []) = true := by
        simp only [xmlOk, Bool.and_eq_true]
        exact ⟨⟨hlast, hv⟩, rfl⟩
      exact ⟨hok.2, by simp [xmlOkList, hleaf]⟩
  | s :: b :: t, hsegs, n, hok => by
    have hs : xmlNameOk s = true := by
      simp only [List.all_cons, Bool.and_eq_true] at hsegs
      exact hsegs.1
    have hsegs' : (b :: t).all xmlNameOk = true := by
      simp only [List.all_cons, Bool.and_eq_true] at hsegs ⊢
      exact hsegs.2
    rw [createDescend_cons v s (b :: t) n (by simp)]
    cases n with
    | mk nt nx ncs =>
      simp only [xmlOk, Bool.and_eq_true] at hok
      split
      · simp only [Node.tag_mk, Node.text_mk, Node.children_mk, xmlOk,
          Bool.and_eq_true]
        exact ⟨hok.1, xmlOk_replaceFirstWith s (createDescend v (b :: t))
          (fun x hx => xmlOk_createDescend v hv (b :: t) hsegs' x hx) ncs hok.2⟩
      · simp only [Node.tag_mk, Node.text_mk, Node.children_mk, xmlOk,
          Bool.and_eq_true]
        refine ⟨hok.1, ?_⟩
        rw [xmlOkList_append]
        simp only [Bool.and_eq_true]
        refine ⟨hok.2, ?_⟩
        have := xmlOk_createDescend v hv (b :: t) hsegs' (.mk s none [])
          (by simp [xmlOk, xmlOkList, hs, xmlTextOk])
        simp [xmlOkList, this]

/-- `set` with an XML-name key and XML-valid value keeps the tree on the
round-trippable domain. -/
theorem xmlOk_set (n n' : Node) (k v : String)
    (hk : (pySplit '/' k).all xmlNameOk = true)
    (hv : v.toList.all xmlCharOk = true)
    (hok : xmlOk n = true) (h : TranscriptionConfig.set n k v = some n') :
    xmlOk n' = true := by
  unfold TranscriptionConfig.set at h
  cases hsp : pySplit '/' k with
  | nil => rw [hsp] at h; simp at h
  | cons s rest =>
    rw [hsp] at h
    rw [hsp] at hk
    cases rest with
    | nil =>
      simp only [Option.some.injEq] at h
      subst h
      cases n with
      | mk t x cs =>
        simp only [xmlOk, Bool.and_eq_true] at hok ⊢
        exact ⟨⟨hok.1.1, hv⟩, hok.2⟩
    | cons b tl =>
      have h2 : (if (s :: b :: tl).all segmentPlain = true then
          setDescend v (s :: b :: tl) n else none) = some n' := h
      by_cases hall : ((s :: b :: tl).all segmentPlain) = true
      · rw [if_pos hall] at h2
        exact xmlOk_setDescend v hv (s :: b :: tl) hk n n' hok h2
      · rw [if_neg hall] at h2
        simp at h2

/-- `create_key` with an XML-name key and XML-valid value keeps the tree on
the round-trippable domain. -/
theorem xmlOk_create (n n' : Node) (k v : String)
    (hk : (pySplit '/' k).all xmlNameOk = true)
    (hv : v.toList.all xmlCharOk = true)
    (hok : xmlOk n = true)
    (h : TranscriptionConfig.create_key n k v = some n') :
    xmlOk n' = true := by
  unfold TranscriptionConfig.create_key at h
  cases hsp : pySplit '/' k with
  | nil => rw [hsp] at h; simp at h
  | cons s rest =>
    rw [hsp] at h
    rw [hsp] at hk
    cases rest with
    | nil =>
      have hs : xmlNameOk s = true := by simpa using hk
      simp only [Option.some.injEq] at h
      subst h
      cases n with
      | mk t x cs =>
        simp only [xmlOk, Bool.and_eq_true] at hok ⊢
        refine ⟨hok.1, ?_⟩
        rw [xmlOkList_append]
        simp only [Bool.and_eq_true]
        have hleaf : xmlOk (.mk s (some v) []) = true := by
          simp only [xmlOk, Bool.and_eq_true]
          exact ⟨⟨hs, hv⟩, rfl⟩
        exact ⟨hok.2, by simp [xmlOkList, hleaf]⟩
    | cons b tl =>
      have h2 : (if (s :: b :: tl).all segmentPlain = true then
          some (createDescend v (s :: b :: tl) n) else none) = some n' := h
      by_cases hall : ((s :: b :: tl).all segmentPlain) = true
      · rw [if_pos hall, Option.some.injEq] at h2
        subst h2
        exact xmlOk_createDescend v hv (s :: b :: tl) hk n hok
      · rw [if_neg hall] at h2
        simp at h2

/-- Any sequence of set/create_key operations over XML-name keys with
XML-valid values preserves well-formedness. -/
theorem xmlOk_applyOps :
    ∀ (ops : List Op) (n : Node),
      (∀ op ∈ ops, (pySplit '/' op.key).all xmlNameOk = true ∧
        op.value.toList.all xmlCharOk = true) →
      xmlOk n = true → xmlOk (applyOps n ops) = true
  | [], _, _, hok => hok
  | op :: ops, n, hops, hok => by
    have hop := hops op (by simp)
    have hrest : ∀ o ∈ ops, (pySplit '/' o.key).all xmlNameOk = true ∧
        o.value.toList.all xmlCharOk = true := fun o ho =>
      hops o (List.mem_cons_of_mem _ ho)
    have hstep : xmlOk (applyOp n op) = true := by
      cases op with
      | setv k v =>
        show xmlOk ((TranscriptionConfig.set n k v).getD n) = true
        cases hs : TranscriptionConfig.set n k v with
        | none => exact hok
        | some n' => exact xmlOk_set n n' k v hop.1 hop.2 hok hs
      | createv k v =>
        show xmlOk ((TranscriptionConfig.create_key n k v).getD n) = true
        cases hs : TranscriptionConfig.create_key n k v with
        | none => exact hok
        | some n' => exact xmlOk_create n n' k v hop.1 hop.2 hok hs
    simpa [applyOps, List.foldl_cons] using
      xmlOk_applyOps ops (applyOp n op) hrest hstep

mutual

/-- On a well-formed tree with no empty texts, the write/parse round trip
succeeds and is the identity. -/
theorem etWriteRead_of_ok :
    ∀ n : Node, xmlOk n = true → textsNonempty n = true →
      etWriteRead n = some n
  | .mk t txt cs, hx, ht => by
    simp only [xmlOk, Bool.and_eq_true] at hx
    simp only [textsNonempty, Bool.and_eq_true] at ht
    show (if xmlNameOk t && xmlTextOk txt then
        (etWriteReadList cs).map fun cs' =>
          Node.mk t (if txt == some "" then none else txt) cs'
      else none) = some (Node.mk t txt cs)
    rw [if_pos (by simp [hx.1.1, hx.1.2]),
      etWriteReadList_of_ok cs hx.2 ht.2]
    have htxt : (txt == some "") = false := by
      cases h : txt == some "" with
      | false => rfl
      | true => rw [h] at ht; simp at ht
    simp [htxt]

/-- `etWriteRead_of_ok` across a child list. -/
theorem etWriteReadList_of_ok :
    ∀ cs : List Node, xmlOkList cs = true → textsNonemptyList cs = true →
      etWriteReadList cs = some cs
  | [], _, _ => rfl
  | c :: cs, hx, ht => by
    simp only [xmlOkList, Bool.and_eq_true] at hx
    simp only [textsNonemptyList, Bool.and_eq_true] at ht
    show (match etWriteRead c, etWriteReadList cs with
      | some c', some cs' => some (c' :: cs')
      | _, _ => none) = some (c :: cs)
    rw [etWriteRead_of_ok c hx.1 ht.1, etWriteReadList_of_ok cs hx.2 ht.2]

end

/-- C6 (amended): `delete_key` is forgiving — on a plain key it returns
`False` (raising nothing, leaving the tree unchanged) exactly when its
target element, the first child carrying the terminal tag under the
document-order-first match of the leading segments, does not exist — and
deleting twice equals deleting once PROVIDED that parent holds at most one
child with the terminal tag (no duplicate terminal siblings): then the
second call is a `False` no-op. -/
theorem C6_delete_forgiving (root : Node) (k : String)
    (hplain : pathPlain k = true) :
    (∀ init last, pySplit '/' k = init ++ [last] →
      (TranscriptionConfig.delete_key root k = none ↔
        deleteTarget root init last = none)) ∧
    (∀ r1 init last p, pySplit '/' k = init ++ [last] →
      TranscriptionConfig.delete_key root k = some r1 →
      etFindPath root init = some p →
      (p.children.filter fun c => c.tag == last).length ≤ 1 →
      TranscriptionConfig.delete_key r1 k = none) := by
  have hdel : ∀ (n : Node) (init : List String) (last : String),
      pySplit '/' k = init ++ [last] →
      TranscriptionConfig.delete_key n k = delDescend last n init := by
    intro n init last hsp
    unfold TranscriptionConfig.delete_key
    rw [if_pos hplain, hsp, List.getLast?_concat, List.dropLast_concat]
  constructor
  · intro init last hsp
    rw [hdel root init last hsp]
    constructor
    · intro h
      cases ht : deleteTarget root init last with
      | none => rfl
      | some m =>
        have hiff := delDescend_isSome_iff last init root
        rw [h, ht] at hiff
        simp at hiff
    · intro h
      cases hd : delDescend last root init with
      | none => rfl
      | some m =>
        have hiff := delDescend_isSome_iff last init root
        rw [h, hd] at hiff
        simp at hiff
  · intro r1 init last p hsp h1 hp hcount
    rw [hdel root init last hsp] at h1
    rw [hdel r1 init last hsp]
    rcases delDescend_spec last init root r1 h1 with ⟨p0, cs', hp0, hrem, hafter⟩
    have hpe : p0 = p := by
      rw [hp0] at hp
      exact Option.some.inj hp
    subst hpe
    have hnone : cs'.find? (fun c => c.tag == last) = none :=
      removeFirstChild_unique_find last p0.children cs' hrem hcount
    cases hd : delDescend last r1 init with
    | none => rfl
    | some m =>
      have hiff := delDescend_isSome_iff last init r1
      rw [hd] at hiff
      have htar : deleteTarget r1 init last = none := by
        unfold deleteTarget
        rw [hafter]
        show findChild (Node.mk p0.tag p0.text cs') last = none
        simp only [findChild, Node.children_mk]
        exact hnone
      rw [htar] at hiff
      simp at hiff

/-- C6 witness: deleting the only `a` once succeeds; the second deletion is
a `False` no-op. -/
theorem C6_witness :
    TranscriptionConfig.delete_key (.mk "config" none []) "a" = none :=
  (C6_delete_forgiving (.mk "config" none [.mk "a" (some "1") []]) "a"
      (by decide)).2
    (.mk "config" none []) [] "a" (.mk "config" none [.mk "a" (some "1") []])
    rfl rfl rfl (by decide)

/-- C9 (amended): for every well-formed (plain slash-delimited tag) key,
`get` never fails: it returns the text of the document-order-first node
matching the whole path (ElementTree's backtracking `find`) when one
exists, and absent otherwise; malformed path expressions are the one
exception, raising out of `get`. -/
theorem C9_get_never_fails (root : Node) (k : String)
    (hplain : pathPlain k = true) :
    TranscriptionConfig.get root k =
      .ok ((etFindPath root (pySplit '/' k)).bind Node.text) := by
  unfold TranscriptionConfig.get etFind
  rw [if_pos hplain]
  cases etFindPath root (pySplit '/' k) <;> rfl

/-- C9 witness: a plain lookup on a concrete store returns `ok`, resolving
across a duplicate empty sibling by backtracking. -/
theorem C9_witness :
    TranscriptionConfig.get
        (.mk "config" none [.mk "a" none [],
          .mk "a" none [.mk "b" (some "v") []]]) "a/b" =
      .ok ((etFindPath (.mk "config" none [.mk "a" none [],
          .mk "a" none [.mk "b" (some "v") []]])
        (pySplit '/' "a/b")).bind Node.text) :=
  C9_get_never_fails (.mk "config" none [.mk "a" none [],
    .mk "a" none [.mk "b" (some "v") []]]) "a/b" (by decide)

/-- C10: at the `get` interface a node with absent text is indistinguishable
from an absent node: whenever every node the backtracking `find` can return
for a plain key has no text — covering both a path resolving to a valueless
node (such as an intermediate container made by create-on-demand) and a
path resolving to no node at all — `get` returns absent. -/
theorem C10_absent_text_indistinguishable (root : Node) (k : String)
    (hplain : pathPlain k = true)
    (habs : ∀ m, etFindPath root (pySplit '/' k) = some m → m.text = none) :
    TranscriptionConfig.get root k = .ok none := by
  unfold TranscriptionConfig.get etFind
  rw [if_pos hplain]
  cases hf : etFindPath root (pySplit '/' k) with
  | none => rfl
  | some m =>
    have hm := habs m hf
    show Except.ok m.text = .ok none
    rw [hm]

/-- C10 witness: after `create_key("a/b", "v")` created the valueless
container `a`, `get("a")` returns absent — exactly as `get` on a missing
key does, though the container node exists. -/
theorem C10_witness :
    TranscriptionConfig.get
        (.mk "config" none [.mk "a" none [.mk "b" (some "v") []]]) "a" =
      .ok none :=
  C10_absent_text_indistinguishable
    (.mk "config" none [.mk "a" none [.mk "b" (some "v") []]]) "a"
    (by decide)
    (by
      intro m hm
      have hm2 : some (Node.mk "a" none [.mk "b" (some "v") []]) = some m := hm
      rw [← Option.some.inj hm2]
      rfl)

end ISC
